import Mathlib

/-!
# A verification development for the `glob` library

This file gives a shallow embedding, in Lean 4, of the pattern compiler,
the backtracking matcher and the filesystem-traversal iterator of the
`glob` library (`src/lib.rs`), together with theorems about the embedded
definitions.

Conventions of the embedding:
* Rust `&str`/`String` values are embedded as `List Char` (`chars()`
  sequences); for valid UTF-8, byte-wise comparison of Rust strings agrees
  with code-point-wise comparison, so lexicographic order is preserved.
* The code is compiled for a non-Windows target: `cfg!(windows)` is
  `false`, `path::is_sep c` is `c = '/'`, and the `#[cfg(windows)]` items
  are dead code.
* `usize` arithmetic wraps on underflow (the crate predates checked
  overflow); where the original expression can wrap (`i <= chars.len() - 4`)
  the embedded condition spells out the wrapped meaning.
* Places where the Rust code would panic (out-of-bounds indexing or
  slicing, `unwrap()` of an error, a failed `assert!`) are modelled by an
  explicit `panicked` result.
* The filesystem is the external collaborator of the specification: a
  record of `list_children` / `exists` / `is_directory` functions.  Paths
  are lists of component names.
-/

namespace Glob

/-- Character type alias, so that the token constructor named `Char` below
cannot shadow the character type in binder annotations. -/
abbrev Chr := Char

/-- Embedding of `MatchOptions` (src/lib.rs, lines 788-804). -/
structure MatchOptions where
  case_sensitive : Bool
  require_literal_separator : Bool
  require_literal_leading_dot : Bool
deriving DecidableEq, Repr

/-- `MatchOptions::new()` (src/lib.rs, lines 820-826). -/
def MatchOptions.new : MatchOptions :=
  { case_sensitive := true
    require_literal_separator := false
    require_literal_leading_dot := false }

/-- Embedding of `CharSpecifier` (src/lib.rs, lines 358-362). -/
inductive CharSpecifier where
  | SingleChar (c : Chr)
  | CharRange (lo hi : Chr)
deriving DecidableEq, Repr

/-- Embedding of `PatternToken` (src/lib.rs, lines 348-356). -/
inductive PatternToken where
  | Char (c : Chr)
  | AnyChar
  | AnySequence
  | AnyRecursiveSequence
  | AnyWithin (s : List CharSpecifier)
  | AnyExcept (s : List CharSpecifier)
deriving DecidableEq, Repr

/-- Embedding of `MatchResult` (src/lib.rs, lines 364-369). -/
inductive MatchResult where
  | Match
  | SubPatternDoesntMatch
  | EntirePatternDoesntMatch
deriving DecidableEq, Repr

/-- Embedding of `Pattern` (src/lib.rs, lines 327-332). -/
structure Pattern where
  original : List Chr
  tokens : List PatternToken
  is_recursive : Bool
deriving DecidableEq, Repr

instance : Inhabited Pattern := ⟨⟨[], [], false⟩⟩

/-- Embedding of `Error` (src/lib.rs, lines 282-288). -/
structure GlobError where
  pos : Nat
  msg : String
deriving DecidableEq, Repr

def ERROR_WILDCARDS : String :=
  "wildcards are either regular `*` or recursive `**`"
def ERROR_RECURSIVE_WILDCARDS : String :=
  "recursive wildcards must form a single path component"
def ERROR_INVALID_RANGE : String :=
  "invalid range pattern"

/-- `std::path::is_sep` on a posix target. -/
def is_sep (c : Chr) : Bool := c = '/'

/-- Rust `char::is_ascii`. -/
def isAscii (c : Chr) : Bool := c.toNat < 128

/-- Rust `u8/char::to_ascii_lowercase` (maps `A`-`Z` down, all else fixed). -/
def toAsciiLower (c : Chr) : Chr :=
  if 'A' ≤ c ∧ c ≤ 'Z' then Char.ofNat (c.toNat + 32) else c

/-- Rust `char::to_uppercase`, restricted to the ASCII arguments at which the
code applies it (maps `a`-`z` up, all other ASCII fixed). -/
def toAsciiUpper (c : Chr) : Chr :=
  if 'a' ≤ c ∧ c ≤ 'z' then Char.ofNat (c.toNat - 32) else c

/-- Embedding of `chars_eq` (src/lib.rs, lines 774-783); the
`cfg!(windows)` branch is dead on a posix target. -/
def chars_eq (a b : Chr) (case_sensitive : Bool) : Bool :=
  if !case_sensitive && isAscii a && isAscii b then
    toAsciiLower a == toAsciiLower b
  else
    a == b

/-- Embedding of `in_char_specifiers` (src/lib.rs, lines 733-771): the loop
with early `return true` becomes an `any` over the per-specifier test. -/
def in_char_specifiers (specifiers : List CharSpecifier) (c : Chr)
    (options : MatchOptions) : Bool :=
  specifiers.any fun specifier =>
    match specifier with
    | .SingleChar sc => chars_eq c sc options.case_sensitive
    | .CharRange start stop =>
      (if !options.case_sensitive && isAscii c && isAscii start && isAscii stop then
        let start' := toAsciiLower start
        let stop' := toAsciiLower stop
        let start_up := toAsciiUpper start'
        let stop_up := toAsciiUpper stop'
        -- source comment: "only allow case insensitive matching when
        -- both start and end are within a-z or A-Z"
        if start' ≠ start_up ∧ stop' ≠ stop_up then
          let c' := toAsciiLower c
          start' ≤ c' ∧ c' ≤ stop'
        else false
      else false) ||
      (start ≤ c ∧ c ≤ stop)

/-- The `require_literal` closure inside `matches_from`
(src/lib.rs, lines 575-579). -/
def require_literal (options : MatchOptions) (prev_char : Option Chr)
    (c : Chr) : Bool :=
  (options.require_literal_separator && is_sep c) ||
  (options.require_literal_leading_dot && c = '.'
    && is_sep (prev_char.getD '/'))

/-- Embedding of `Pattern::matches_from` (src/lib.rs, lines 567-648).  The
Rust function iterates over `self.tokens.slice_from(i)`; the embedding
recurses directly on that remaining token list.  The `loop` under an
`AnySequence`/`AnyRecursiveSequence` token becomes the self-call with the
same token list and one candidate character consumed. -/
def matches_from (options : MatchOptions) (prev_char : Option Chr)
    (file : List Chr) (tokens : List PatternToken) : MatchResult :=
  match tokens with
  | [] =>
    if file.isEmpty then .Match else .SubPatternDoesntMatch
  | token :: rest =>
    match token with
    | .AnySequence | .AnyRecursiveSequence =>
      -- first try the zero-consumption case, then consume one character
      (match matches_from options prev_char file rest with
       | .SubPatternDoesntMatch =>
         (match file with
          | [] => .EntirePatternDoesntMatch
          | c :: next =>
            if token = .AnySequence ∧ require_literal options prev_char c then
              .SubPatternDoesntMatch
            else
              matches_from options (some c) next (token :: rest))
       | m => m)
    | _ =>
      match file with
      | [] => .EntirePatternDoesntMatch
      | c :: next =>
        let m : Bool :=
          match token with
          | .AnyChar => !require_literal options prev_char c
          | .AnyWithin specifiers =>
            !require_literal options prev_char c &&
              in_char_specifiers specifiers c options
          | .AnyExcept specifiers =>
            !require_literal options prev_char c &&
              !in_char_specifiers specifiers c options
          | .Char c2 => chars_eq c c2 options.case_sensitive
          | _ => false   -- `unreachable!()` in the source
        if !m then .SubPatternDoesntMatch
        else matches_from options (some c) next rest
termination_by (file.length, tokens.length)
decreasing_by
  all_goals simp only [List.length_cons]
  all_goals first
    | exact Prod.Lex.right _ (by omega)
    | exact Prod.Lex.left _ _ (by omega)

/-- `Pattern::matches_with` (src/lib.rs, lines 549-551). -/
def Pattern.matches_with (p : Pattern) (str : List Chr)
    (options : MatchOptions) : Bool :=
  matches_from options none str p.tokens == .Match

/-- `Pattern::matches` (src/lib.rs, lines 535-537). -/
def Pattern.matches (p : Pattern) (str : List Chr) : Bool :=
  p.matches_with str MatchOptions.new

/-- Embedding of `parse_char_specifiers` (src/lib.rs, lines 718-731). -/
def parse_char_specifiers : List Chr → List CharSpecifier
  | a :: '-' :: b :: rest => .CharRange a b :: parse_char_specifiers rest
  | a :: rest => .SingleChar a :: parse_char_specifiers rest
  | [] => []

/-- `Vec::position_elem` for `']'` searches. -/
def position_elem (a : Chr) : List Chr → Option Nat
  | [] => none
  | c :: rest => if c = a then some 0 else (position_elem a rest).map (· + 1)

/-- The inner `while i < chars.len() && chars[i] == '*'` loop of
`Pattern::new` (src/lib.rs, lines 398-400): the index at which the `*` run
starting at `i` ends. -/
def star_run_end (chars : List Chr) (i : Nat) : Nat :=
  if h : i < chars.length ∧ chars.getD i ' ' = '*' then
    star_run_end chars (i + 1)
  else i
termination_by chars.length - i
decreasing_by omega

theorem star_run_end_ge (chars : List Chr) (i : Nat) :
    i ≤ star_run_end chars i := by
  unfold star_run_end
  split
  · have := star_run_end_ge chars (i + 1)
    omega
  · omega
termination_by chars.length - i
decreasing_by omega

/-- Result of `Pattern::new`: a compiled pattern, a syntax error, or a
panic (out-of-bounds index/slice caused by wrapped `usize` arithmetic). -/
inductive NewResult where
  | ok (p : Pattern)
  | err (e : GlobError)
  | panicked
deriving DecidableEq, Repr

theorem star_run_end_gt (chars : List Chr) (i : Nat)
    (h : i < chars.length) (h2 : chars.getD i ' ' = '*') :
    i < star_run_end chars i := by
  rw [star_run_end, dif_pos ⟨h, h2⟩]
  have := star_run_end_ge chars (i + 1)
  omega

/-- The `while i < chars.len()` loop of `Pattern::new`
(src/lib.rs, lines 389-493). `chars` is the full character vector, `i` the
loop index, `tokens` and `is_recursive` the accumulated state.

The `tokens.push(AnyRecursiveSequence)` step guarded by
`!(tokens_len > 1 && tokens[tokens_len - 1] == AnyRecursiveSequence)`
(lines 444-450) is spelled out at both continuations of a valid `**`
(separator consumed / end of pattern).

On `'['`: the Rust guards are `i <= chars.len() - 4` and
`i <= chars.len() - 3` in wrapping `usize` arithmetic, so for
`chars.len() < 4` (resp. `< 3`) the subtraction wraps and the comparison
is vacuously true; the guards are embedded in that wrapped meaning.  The
subsequent `chars[i + 1]` index and `slice_from(i + 3)` slice can then be
out of bounds, which is a panic.  The `else if` arm (lines 469-479) is
reached both when the first guard's arithmetic fails and when
`chars[i + 1] != '!'`, so it appears twice below, as does the shared
"invalid range pattern" failure (lines 482-486). -/
def new_loop (chars : List Chr) (i : Nat) (tokens : List PatternToken)
    (is_recursive : Bool) : NewResult :=
  if h : i < chars.length then
    if chars.getD i ' ' = '?' then
      new_loop chars (i + 1) (tokens ++ [.AnyChar]) is_recursive
    else if hstar : chars.getD i ' ' = '*' then
      let old := i
      let i2 := star_run_end chars i
      let count := i2 - old
      if count > 2 then
        .err ⟨old + 2, ERROR_WILDCARDS⟩
      else if count = 2 then
        -- `**` can only be an entire path component
        if i2 = 2 ∨ chars.getD (i2 - count - 1) ' ' = '/' then
          if i2 < chars.length ∧ chars.getD i2 ' ' = '/' then
            -- it ends in a '/': consume it, collapse consecutive
            -- AnyRecursiveSequence to a single one
            if !(tokens.length > 1 && tokens.getLast? == some .AnyRecursiveSequence) then
              new_loop chars (i2 + 1) (tokens ++ [.AnyRecursiveSequence]) true
            else
              new_loop chars (i2 + 1) tokens is_recursive
          else if i2 = chars.length then
            -- or the pattern ends here
            if !(tokens.length > 1 && tokens.getLast? == some .AnyRecursiveSequence) then
              new_loop chars i2 (tokens ++ [.AnyRecursiveSequence]) true
            else
              new_loop chars i2 tokens is_recursive
          else
            -- `**` ends in non-separator
            .err ⟨i2, ERROR_RECURSIVE_WILDCARDS⟩
        else
          -- `**` begins with non-separator
          .err ⟨old - 1, ERROR_RECURSIVE_WILDCARDS⟩
      else
        new_loop chars i2 (tokens ++ [.AnySequence]) is_recursive
    else if chars.getD i ' ' = '[' then
      if chars.length < 4 ∨ i + 4 ≤ chars.length then
        match chars[i + 1]? with
        | none => .panicked
        | some c1 =>
          if c1 = '!' then
            if i + 3 ≤ chars.length then
              match position_elem ']' (chars.drop (i + 3)) with
              | some j =>
                new_loop chars (i + j + 4)
                  (tokens ++ [.AnyExcept (parse_char_specifiers
                    ((chars.drop (i + 2)).take (j + 1)))]) is_recursive
              | none => .err ⟨i, ERROR_INVALID_RANGE⟩
            else .panicked
          else
            -- the `else if` arm, reached with `chars[i + 1] != '!'` known
            if chars.length < 3 ∨ i + 3 ≤ chars.length then
              match position_elem ']' (chars.drop (i + 2)) with
              | some j =>
                new_loop chars (i + j + 3)
                  (tokens ++ [.AnyWithin (parse_char_specifiers
                    ((chars.drop (i + 1)).take (j + 1)))]) is_recursive
              | none => .err ⟨i, ERROR_INVALID_RANGE⟩
            else .err ⟨i, ERROR_INVALID_RANGE⟩
      else
        -- the `else if` arm, with `chars[i + 1]` read for the first time
        if chars.length < 3 ∨ i + 3 ≤ chars.length then
          match chars[i + 1]? with
          | none => .panicked
          | some c1 =>
            if c1 ≠ '!' then
              match position_elem ']' (chars.drop (i + 2)) with
              | some j =>
                new_loop chars (i + j + 3)
                  (tokens ++ [.AnyWithin (parse_char_specifiers
                    ((chars.drop (i + 1)).take (j + 1)))]) is_recursive
              | none => .err ⟨i, ERROR_INVALID_RANGE⟩
            else .err ⟨i, ERROR_INVALID_RANGE⟩
        else .err ⟨i, ERROR_INVALID_RANGE⟩
    else
      new_loop chars (i + 1) (tokens ++ [.Char (chars.getD i ' ')]) is_recursive
  else
    .ok ⟨chars, tokens, is_recursive⟩
termination_by chars.length - i
decreasing_by
  all_goals first
  | omega
  | (have hrun := star_run_end_gt chars i h hstar; omega)

/-- `Pattern::new` (src/lib.rs, lines 382-500). -/
def Pattern.new (pattern : List Chr) : NewResult :=
  new_loop pattern 0 [] false

/-- `Pattern::escape` (src/lib.rs, lines 505-521). -/
def Pattern.escape : List Chr → List Chr
  | [] => []
  | c :: rest =>
    (if c = '?' ∨ c = '*' ∨ c = '[' ∨ c = ']' then ['[', c, ']'] else [c])
      ++ Pattern.escape rest

/-- Specification of the token list produced by compiling `escape s`: each
metacharacter becomes a one-element bracket class, everything else a
literal `Char` token. -/
def escape_tokens : List Chr → List PatternToken
  | [] => []
  | c :: rest =>
    (if c = '?' ∨ c = '*' ∨ c = '[' ∨ c = ']'
     then .AnyWithin [.SingleChar c] else .Char c) :: escape_tokens rest

/-- Whether `c` is an ASCII letter (of either case). -/
def isAsciiLetter (c : Chr) : Bool :=
  ('a' ≤ c ∧ c ≤ 'z') ∨ ('A' ≤ c ∧ c ≤ 'Z')

/-! ## Traversal model

The filesystem is the external collaborator of spec §6: `list_children`
(`None` = unreadable), `exists` and `is_directory`.  A `Path` is embedded
as the list of its component names relative to the traversal scope;
`Path::join` appends a component.  (Real `Path` values normalise `.`/`..`
components on `join`; path normalisation belongs to the out-of-scope
platform path collaborator and is not modelled: joined `.`/`..`
components stay as literal components here.) -/

/-- One path component name. -/
abbrev Name := List Chr

/-- A filesystem path: its components, relative to the scope. -/
abbrev Path := List Name

/-- The filesystem collaborator interface. -/
structure Fs where
  list_children : Path → Option (List Name)
  exists_path : Path → Bool
  is_dir : Path → Bool

/-- Byte-wise (= code-point-wise, for valid UTF-8) lexicographic strict
order on names, as produced by Rust's `Ord` on filename byte strings. -/
def strLt : Name → Name → Bool
  | [], [] => false
  | [], _ :: _ => true
  | _ :: _, [] => false
  | a :: as, b :: bs => if a < b then true else if b < a then false else strLt as bs

/-- Embedding of `list_dir_sorted` (src/lib.rs, lines 271-279): the
children are sorted by `|p1, p2| p2.filename().cmp(&p1.filename())`,
i.e. in descending filename order. -/
def list_dir_sorted (fs : Fs) (path : Path) : Option (List Name) :=
  match fs.list_children path with
  | some children => some (children.mergeSort fun p1 p2 => !strLt p1 p2)
  | none => none

/-- `-1 as usize`: the "already verified, yield unconditionally" stack
marker. -/
def sentinel : Nat := 18446744073709551615

/-- The inner loop of `pattern_as_str` (src/lib.rs, lines 658-667). -/
def pattern_as_str_go : List PatternToken → Option Name
  | [] => some []
  | .Char c :: rest => (pattern_as_str_go rest).map (c :: ·)
  | _ => none

/-- `pattern_as_str` inside `fill_todo`: a component consisting only of
`Char` tokens, as a string. -/
def pattern_as_str (pattern : Pattern) : Option Name :=
  pattern_as_str_go pattern.tokens

/-- `Path::filename_str`: the final component name. -/
def filename : Path → Option Name := List.getLast?

/-- Embedding of `fill_todo` (src/lib.rs, lines 655-716).  The local
closure `add` (push with the sentinel index when `idx` is the last
component, recurse into the next component otherwise) is spelled out at
its three call sites.  The out-of-bounds case `idx ≥ patterns.length`
(where the source's `&patterns[idx]` would panic; the traversal never
produces it) returns `todo` unchanged to keep the function total. -/
def fill_todo (fs : Fs) (todo : List (Path × Nat)) (patterns : List Pattern)
    (idx : Nat) (path : Path) (options : MatchOptions) : List (Path × Nat) :=
  if hidx : idx < patterns.length then
    match pattern_as_str (patterns.getD idx default) with
    | some s =>
      -- no metacharacters: check for the one entry (`special` is
      -- `s == "." || s == ".."`, `next_path` is `path.join(s)`) instead of
      -- reading the directory
      if ((s = ['.'] ∨ s = ['.', '.']) ∧ fs.is_dir path)
          ∨ (¬(s = ['.'] ∨ s = ['.', '.']) ∧ fs.exists_path (path ++ [s])) then
        if idx + 1 = patterns.length then todo ++ [(path ++ [s], sentinel)]
        else fill_todo fs todo patterns (idx + 1) (path ++ [s]) options
      else todo
    | none =>
      match list_dir_sorted fs path with
      | some entries =>
        -- matching `.` and `..` requires a pattern with a leading literal
        -- dot; `todo.extend(...)` first, then the two special pushes
        if (patterns.getD idx default).tokens.head? = some (.Char '.') then
          (if (patterns.getD idx default).matches_with ['.', '.'] options then
            fun todo2 =>
              if idx + 1 = patterns.length then todo2 ++ [(path ++ [['.', '.']], sentinel)]
              else fill_todo fs todo2 patterns (idx + 1) (path ++ [['.', '.']]) options
          else id)
          ((if (patterns.getD idx default).matches_with ['.'] options then
            fun todo1 =>
              if idx + 1 = patterns.length then todo1 ++ [(path ++ [['.']], sentinel)]
              else fill_todo fs todo1 patterns (idx + 1) (path ++ [['.']]) options
          else id)
          (todo ++ entries.map fun x => (path ++ [x], idx)))
        else todo ++ entries.map fun x => (path ++ [x], idx)
      | none => todo
  else todo
termination_by patterns.length - idx
decreasing_by all_goals omega

/-- Observer for `fill_todo`: the list of directories passed to
`list_dir_sorted` (i.e. to `readdir`) during one `fill_todo` call,
mirroring the call structure of `fill_todo` exactly. -/
def fill_todo_log (fs : Fs) (patterns : List Pattern) (idx : Nat)
    (path : Path) (options : MatchOptions) : List Path :=
  if hidx : idx < patterns.length then
    match pattern_as_str (patterns.getD idx default) with
    | some s =>
      if ((s = ['.'] ∨ s = ['.', '.']) ∧ fs.is_dir path)
          ∨ (¬(s = ['.'] ∨ s = ['.', '.']) ∧ fs.exists_path (path ++ [s])) then
        if idx + 1 = patterns.length then []
        else fill_todo_log fs patterns (idx + 1) (path ++ [s]) options
      else []
    | none =>
      path ::
      (match list_dir_sorted fs path with
       | some _ =>
         if (patterns.getD idx default).tokens.head? = some (.Char '.') then
           (if (patterns.getD idx default).matches_with ['.'] options then
              if idx + 1 = patterns.length then []
              else fill_todo_log fs patterns (idx + 1) (path ++ [['.']]) options
            else []) ++
           (if (patterns.getD idx default).matches_with ['.', '.'] options then
              if idx + 1 = patterns.length then []
              else fill_todo_log fs patterns (idx + 1) (path ++ [['.', '.']]) options
            else [])
         else []
       | none => [])
  else []
termination_by patterns.length - idx
decreasing_by all_goals omega

/-- The state of the `Paths` iterator (src/lib.rs, lines 42-47). -/
structure Paths where
  dir_patterns : List Pattern
  require_dir : Bool
  options : MatchOptions
  todo : List (Path × Nat)

/-- Outcome of one iteration of the `loop` in `Paths::next`. -/
inductive StepResult where
  | yield (p : Path)
  | skip
  | done
deriving DecidableEq, Repr

/-- The `while next < ... && dir_patterns[next].is_recursive` collapse
loop of `Paths::next` (src/lib.rs, lines 188-191). -/
def next_non_recursive (patterns : List Pattern) (n : Nat) : Nat :=
  if h : n < patterns.length ∧ (patterns.getD n default).is_recursive then
    next_non_recursive patterns (n + 1)
  else n
termination_by patterns.length - n
decreasing_by omega

/-- One iteration of the `loop` body of `Paths::next`
(src/lib.rs, lines 159-267): pop one `todo` entry (from the end) and
either yield a path, continue (`skip`), or finish.  Filenames that are
not valid text (`filename_str()` = `None`) are skipped; in this model
`filename` is `None` only for an empty path. -/
def paths_step (fs : Fs) (st : Paths) : StepResult × Paths :=
  if st.dir_patterns.isEmpty ∨ st.todo.isEmpty then (.done, st)
  else
    match st.todo.getLast? with
    | none => (.done, st)
    | some (path, idx) =>
      if idx = sentinel then
        -- already checked by fill_todo
        if st.require_dir ∧ ¬ fs.is_dir path then
          (.skip, { st with todo := st.todo.dropLast })
        else (.yield path, { st with todo := st.todo.dropLast })
      else
        if (st.dir_patterns.getD idx default).is_recursive
            ∧ ¬ idx = st.dir_patterns.length - 1 then
          if next_non_recursive st.dir_patterns (idx + 1) = st.dir_patterns.length then
            -- no non-recursive patterns follow: auto-accept all remaining
            (.yield path,
             { st with todo := (fill_todo fs st.todo.dropLast st.dir_patterns
                 (next_non_recursive st.dir_patterns (idx + 1) - 1) path st.options) })
          else
            match filename path with
            | none => (.skip, { st with todo := st.todo.dropLast })
            | some x =>
              -- `is_match` decides `(current_idx, next_idx)`:
              -- `(next, next + 1)` on a match, `(next - 1, next - 1)` otherwise
              if (st.dir_patterns.getD (next_non_recursive st.dir_patterns (idx + 1))
                    default).matches_with x st.options then
                if next_non_recursive st.dir_patterns (idx + 1)
                    = st.dir_patterns.length - 1 then
                  if ¬ st.require_dir ∨ fs.is_dir path then
                    (.yield path, { st with todo := st.todo.dropLast })
                  else (.skip, { st with todo := st.todo.dropLast })
                else
                  (.skip,
                   { st with todo := (fill_todo fs st.todo.dropLast st.dir_patterns
                       (next_non_recursive st.dir_patterns (idx + 1) + 1) path st.options) })
              else
                if next_non_recursive st.dir_patterns (idx + 1) - 1
                    = st.dir_patterns.length - 1 then
                  if ¬ st.require_dir ∨ fs.is_dir path then
                    (.yield path, { st with todo := st.todo.dropLast })
                  else (.skip, { st with todo := st.todo.dropLast })
                else
                  (.skip,
                   { st with todo := (fill_todo fs st.todo.dropLast st.dir_patterns
                       (next_non_recursive st.dir_patterns (idx + 1) - 1) path st.options) })
        else if (st.dir_patterns.getD idx default).is_recursive
            ∧ idx = st.dir_patterns.length - 1 then
          -- recursive and last: automatically match everything else
          (.yield path,
           { st with todo := (fill_todo fs st.todo.dropLast st.dir_patterns idx path st.options) })
        else
          match filename path with
          | none => (.skip, { st with todo := st.todo.dropLast })
          | some x =>
            if (st.dir_patterns.getD idx default).matches_with x st.options then
              if idx = st.dir_patterns.length - 1 then
                if ¬ st.require_dir ∨ fs.is_dir path then
                  (.yield path, { st with todo := st.todo.dropLast })
                else (.skip, { st with todo := st.todo.dropLast })
              else
                (.skip,
                 { st with todo := (fill_todo fs st.todo.dropLast st.dir_patterns
                     (idx + 1) path st.options) })
            else (.skip, { st with todo := st.todo.dropLast })

/-- Run the iterator: the sequence of paths produced by repeated
`Paths::next` calls.  `fuel` bounds the number of loop iterations (the
Rust loop is unbounded on an adversarially deep filesystem model). -/
def collect_paths (fs : Fs) : Nat → Paths → List Path
  | 0, _ => []
  | fuel + 1, st =>
    match paths_step fs st with
    | (.done, _) => []
    | (.skip, st') => collect_paths fs fuel st'
    | (.yield p, st') => p :: collect_paths fs fuel st'

/-- Rust `split_terminator(is_sep)`: like splitting on `/`, but a trailing
empty piece (from a pattern ending in the separator, or an empty pattern)
is dropped. -/
def split_terminator_sep (s : List Chr) : List (List Chr) :=
  let parts := s.splitOn '/'
  if parts.getLast? = some [] then parts.dropLast else parts

/-- Result of `glob_with`: an iterator state, a pattern error, or a panic
(from `unwrap()` on a component compilation or the `assert!`). -/
inductive GlobResult where
  | ok (paths : Paths)
  | err (e : GlobError)
  | panicked

/-- Embedding of `glob_with` (src/lib.rs, lines 93-154) on a posix target:
`check_windows_verbatim` is constantly `false` and `to_scope` the
identity.  `root_path()` of a pattern is `Some(Path::new("/"))` exactly
for an absolute pattern (modelled as the one-component path `["/"]`,
with `root_len = 1`), and the scope of a relative pattern is
`Path::new(".")` (the one-component path `["."]`). -/
def glob_with (fs : Fs) (pattern : List Chr) (options : MatchOptions) : GlobResult :=
  match Pattern.new pattern with
  | .err e => .err e
  | .panicked => .panicked
  | .ok _ =>
    -- `root_len` is 1 for an absolute pattern, else 0; the scope is the
    -- root path `/` or `.`; the pieces are the components after the root
    match (split_terminator_sep (pattern.drop
        (min (if pattern.head? = some '/' then 1 else 0) pattern.length))).mapM
        (fun s => match Pattern.new s with | .ok p => some p | _ => none) with
    | none => .panicked
    | some dir_patterns =>
      if dir_patterns.length < sentinel then
        .ok ⟨dir_patterns,
          pattern.getLast?.map is_sep == some true,
          options,
          if dir_patterns.length > 0 then
            fill_todo fs [] dir_patterns 0
              (if pattern.head? = some '/' then [['/']] else [['.']]) options
          else []⟩
      else .panicked

/-- The path sequence produced by a `glob_with` traversal (`none` when
`glob_with` itself fails). -/
def glob_run (fs : Fs) (pattern : List Chr) (options : MatchOptions)
    (fuel : Nat) : Option (List Path) :=
  match glob_with fs pattern options with
  | .ok st => some (collect_paths fs fuel st)
  | _ => none

/-- Sanity of the filesystem collaborator: `readdir` of a real directory
never returns duplicate names, never the special entries `.` and `..`,
and names never contain the path separator. -/
def Fs.WF (fs : Fs) : Prop :=
  ∀ p ns, fs.list_children p = some ns →
    ns.Pairwise (· ≠ ·) ∧ ∀ n ∈ ns, n ≠ ['.'] ∧ n ≠ ['.', '.'] ∧ '/' ∉ n

/-! ## The order in which the traversal yields paths

Within one directory expansion the iterator pops, in order: the synthetic
`..` entry, the synthetic `.` entry (both only for patterns with a
leading literal dot), then the listed children in ascending name order.
`name_rank`/`nameLtB` encode that per-level order; `pathLtB` lifts it to
paths componentwise and `pathLeB` adds the tree order's "a directory
comes right before its own descendants". -/

/-- Per-level rank: synthetic `..` first, then `.`, then listed names. -/
def name_rank (n : Name) : Nat :=
  if n = ['.', '.'] then 0 else if n = ['.'] then 1 else 2

/-- Strict order on sibling names: by rank, then lexicographically. -/
def nameLtB (a b : Name) : Bool :=
  name_rank a < name_rank b ∨ (name_rank a = name_rank b ∧ strLt a b)

/-- Strict sibling order on paths: the first differing component decides. -/
def pathLtB : Path → Path → Bool
  | a :: p, b :: q => nameLtB a b || (a == b && pathLtB p q)
  | _, _ => false

/-- The depth-first tree order on paths: either a strict sibling
difference, or a prefix (ancestors come first). -/
def pathLeB (p q : Path) : Bool := pathLtB p q || p.isPrefixOf q

/-! ## Concrete filesystems used in counterexamples and witnesses -/

/-- A scope directory containing one plain file `f` and one directory `d`
(which is empty). -/
def fs_ex : Fs where
  list_children := fun p =>
    if p = [['.']] then some [['f'], ['d']]
    else if p = [['.'], ['d']] then some []
    else none
  exists_path := fun p =>
    p == [['.']] || p == [['.'], ['f']] || p == [['.'], ['d']]
  is_dir := fun p => p == [['.']] || p == [['.'], ['d']]

/-- A scope directory containing the two hidden entries `.x` and `.y`
(plain files). -/
def fs_dots : Fs where
  list_children := fun p =>
    if p = [['.']] then some [['.', 'x'], ['.', 'y']] else none
  exists_path := fun p =>
    p == [['.']] || p == [['.'], ['.', 'x']] || p == [['.'], ['.', 'y']]
  is_dir := fun p => p == [['.']]

/-- Every non-sentinel `todo` entry's path ends in a separator-free
component: the only candidates the stored options are ever applied to. -/
def TodoSepFree (todo : List (Path × Nat)) : Prop :=
  ∀ e ∈ todo, e.2 ≠ sentinel → ∃ q n, e.1 = q ++ [n] ∧ ∀ c ∈ n, c ≠ '/'

/-! # Theorems -/

/-! ## Generic helper lemmas -/

theorem char_le_iff (a b : Chr) : a ≤ b ↔ a.toNat ≤ b.toNat := by
  rw [Char.le_def]
  exact ⟨fun h => h, fun h => h⟩

theorem char_eq_iff (a b : Chr) : a = b ↔ a.toNat = b.toNat := by
  constructor
  · intro h; rw [h]
  · intro h; exact Char.ext (UInt32.ext h)

theorem char_toNat_ofNat (n : Nat) (h : n < 55296) : (Char.ofNat n).toNat = n := by
  simp [Char.ofNat, h, Nat.isValidChar, Char.toNat, Char.ofNatAux]
  rfl

theorem toAsciiLower_toNat (c : Chr) :
    (toAsciiLower c).toNat =
      if 65 ≤ c.toNat ∧ c.toNat ≤ 90 then c.toNat + 32 else c.toNat := by
  unfold toAsciiLower
  have hA : ('A' : Chr).toNat = 65 := rfl
  have hZ : ('Z' : Chr).toNat = 90 := rfl
  by_cases h : 'A' ≤ c ∧ c ≤ 'Z'
  · have h1 := (char_le_iff 'A' c).1 h.1
    have h2 := (char_le_iff c 'Z').1 h.2
    rw [hA] at h1; rw [hZ] at h2
    rw [if_pos h, if_pos ⟨h1, h2⟩]
    exact char_toNat_ofNat _ (by omega)
  · rw [if_neg h, if_neg]
    intro hc
    exact h ⟨(char_le_iff 'A' c).2 (by omega), (char_le_iff c 'Z').2 (by omega)⟩

theorem toAsciiUpper_toNat (c : Chr) :
    (toAsciiUpper c).toNat =
      if 97 ≤ c.toNat ∧ c.toNat ≤ 122 then c.toNat - 32 else c.toNat := by
  unfold toAsciiUpper
  have ha : ('a' : Chr).toNat = 97 := rfl
  have hz : ('z' : Chr).toNat = 122 := rfl
  by_cases h : 'a' ≤ c ∧ c ≤ 'z'
  · have h1 := (char_le_iff 'a' c).1 h.1
    have h2 := (char_le_iff c 'z').1 h.2
    rw [ha] at h1; rw [hz] at h2
    rw [if_pos h, if_pos ⟨h1, h2⟩]
    exact char_toNat_ofNat _ (by omega)
  · rw [if_neg h, if_neg]
    intro hc
    exact h ⟨(char_le_iff 'a' c).2 (by omega), (char_le_iff c 'z').2 (by omega)⟩

theorem isAsciiLetter_toNat (c : Chr) :
    isAsciiLetter c = true ↔
      (97 ≤ c.toNat ∧ c.toNat ≤ 122) ∨ (65 ≤ c.toNat ∧ c.toNat ≤ 90) := by
  have ha : ('a' : Chr).toNat = 97 := rfl
  have hz : ('z' : Chr).toNat = 122 := rfl
  have hA : ('A' : Chr).toNat = 65 := rfl
  have hZ : ('Z' : Chr).toNat = 90 := rfl
  simp only [isAsciiLetter, decide_eq_true_eq]
  rw [char_le_iff, char_le_iff, char_le_iff, char_le_iff, ha, hz, hA, hZ]

/-- With default options the `require_literal` guard never fires. -/
theorem require_literal_new (prev : Option Chr) (c : Chr) :
    require_literal MatchOptions.new prev c = false := by
  simp [require_literal, MatchOptions.new]

theorem getD_append_len (pre l : List Chr) (k : Nat) (d : Chr) :
    (pre ++ l).getD (pre.length + k) d = l.getD k d := by
  simp only [List.getD_eq_getElem?_getD]
  rw [List.getElem?_append_right (by omega)]
  simp

/-! ## C1: exhausted token sequences and leftover candidates -/

/-- C1: when the token sequence is exhausted, `matches_from` returns
`Match` exactly for the empty remaining candidate and the ordinary
mismatch `SubPatternDoesntMatch` (never an error, never `Match`) for a
non-empty one; hence `matches_with` on a pattern with no tokens is true
exactly for the empty candidate. -/
theorem matches_exhausted_tokens (o : MatchOptions) (prev : Option Chr)
    (file : List Chr) (p : Pattern) :
    matches_from o prev file [] =
      (if file = [] then .Match else .SubPatternDoesntMatch)
    ∧ (p.tokens = [] → (p.matches_with file o = true ↔ file = [])) := by
  have h1 : matches_from o prev file [] =
      (if file = [] then .Match else .SubPatternDoesntMatch) := by
    rw [matches_from]
    cases file <;> simp
  refine ⟨h1, fun htok => ?_⟩
  rw [Pattern.matches_with, htok]
  have h2 : matches_from o none file [] =
      (if file = [] then .Match else .SubPatternDoesntMatch) := by
    rw [matches_from]
    cases file <;> simp
  rw [h2]
  cases file <;> simp

/-- Witness for `matches_exhausted_tokens` at a concrete input: the
token-free pattern does not match the nonempty candidate `x`. -/
theorem matches_exhausted_tokens_witness :
    matches_from MatchOptions.new none ['x'] [] =
      (if ['x'] = ([] : List Chr) then .Match else .SubPatternDoesntMatch)
    ∧ ((⟨[], [], false⟩ : Pattern).tokens = [] →
        ((⟨[], [], false⟩ : Pattern).matches_with ['x'] MatchOptions.new = true
          ↔ ['x'] = ([] : List Chr))) :=
  matches_exhausted_tokens MatchOptions.new none ['x'] ⟨[], [], false⟩

/-! ## C2: `escape` round trip -/

/-- Scan step for an escaped metacharacter: the compiler consumes the
three characters `[c]` and emits a one-element bracket class. -/
theorem new_loop_meta_step (pre post : List Chr) (c : Chr)
    (tokens : List PatternToken) (rec : Bool)
    (hm : c = '?' ∨ c = '*' ∨ c = '[' ∨ c = ']') :
    new_loop (pre ++ '[' :: c :: ']' :: post) pre.length tokens rec =
      new_loop (pre ++ '[' :: c :: ']' :: post) (pre.length + 3)
        (tokens ++ [.AnyWithin [.SingleChar c]]) rec := by
  have hne : c ≠ '!' := by
    rcases hm with h | h | h | h <;> subst h <;> decide
  have hlen : (pre ++ '[' :: c :: ']' :: post).length = pre.length + 3 + post.length := by
    simp; omega
  have hget0 : (pre ++ '[' :: c :: ']' :: post).getD pre.length ' ' = '[' := by
    have := getD_append_len pre ('[' :: c :: ']' :: post) 0 ' '
    simpa using this
  have hget1 : (pre ++ '[' :: c :: ']' :: post)[pre.length + 1]? = some c := by
    rw [List.getElem?_append_right (by omega)]
    simp
  have hdrop1 : (pre ++ '[' :: c :: ']' :: post).drop (pre.length + 1) = c :: ']' :: post := by
    rw [List.drop_append]
    simp
  have hdrop2 : (pre ++ '[' :: c :: ']' :: post).drop (pre.length + 2) = ']' :: post := by
    rw [List.drop_append]
    simp
  have hparse : parse_char_specifiers [c] = [.SingleChar c] := rfl
  rw [new_loop]
  rw [dif_pos (show pre.length < (pre ++ '[' :: c :: ']' :: post).length by
    simp)]
  rw [hget0]
  rw [if_neg (show ¬('[' : Chr) = '?' by decide)]
  rw [dif_neg (show ¬('[' : Chr) = '*' by decide)]
  rw [if_pos (show ('[' : Chr) = '[' from rfl)]
  by_cases hg1 : (pre ++ '[' :: c :: ']' :: post).length < 4 ∨
      pre.length + 4 ≤ (pre ++ '[' :: c :: ']' :: post).length
  · rw [if_pos hg1, hget1]
    simp only []
    rw [if_neg hne]
    rw [if_pos (Or.inr (show pre.length + 3 ≤ _ by rw [hlen]; omega)), hdrop2]
    rw [position_elem, if_pos rfl]
    simp only [Option.map_some]
    rw [hdrop1]
    simp only [List.take_succ_cons, List.take_zero, hparse]
  · rw [if_neg hg1]
    rw [if_pos (Or.inr (show pre.length + 3 ≤ _ by rw [hlen]; omega)), hget1]
    simp only []
    rw [if_pos hne]
    rw [hdrop2, position_elem, if_pos rfl]
    simp only [Option.map_some]
    rw [hdrop1]
    simp only [List.take_succ_cons, List.take_zero, hparse]

/-- Scan step for an unescaped ordinary character: the compiler consumes
it and emits a literal token. -/
theorem new_loop_char_step (pre post : List Chr) (c : Chr)
    (tokens : List PatternToken) (rec : Bool)
    (hm : ¬(c = '?' ∨ c = '*' ∨ c = '[' ∨ c = ']')) :
    new_loop (pre ++ c :: post) pre.length tokens rec =
      new_loop (pre ++ c :: post) (pre.length + 1) (tokens ++ [.Char c]) rec := by
  push_neg at hm
  have hget0 : (pre ++ c :: post).getD pre.length ' ' = c := by
    have := getD_append_len pre (c :: post) 0 ' '
    simpa using this
  rw [new_loop]
  rw [dif_pos (show pre.length < (pre ++ c :: post).length by simp)]
  rw [hget0]
  rw [if_neg hm.1, dif_neg hm.2.1, if_neg hm.2.2.1]

/-- Compiling the escape of `s`, after an already-processed prefix,
appends exactly the specified tokens and succeeds. -/
theorem new_loop_escape (s : List Chr) : ∀ (pre : List Chr)
    (tokens : List PatternToken) (rec : Bool),
    new_loop (pre ++ Pattern.escape s) pre.length tokens rec =
      .ok ⟨pre ++ Pattern.escape s, tokens ++ escape_tokens s, rec⟩ := by
  induction s with
  | nil =>
    intro pre tokens rec
    rw [Pattern.escape, escape_tokens]
    rw [new_loop]
    simp
  | cons c rest ih =>
    intro pre tokens rec
    rw [Pattern.escape, escape_tokens]
    by_cases hm : c = '?' ∨ c = '*' ∨ c = '[' ∨ c = ']'
    · rw [if_pos hm, if_pos hm]
      simp only [List.cons_append, List.nil_append]
      rw [new_loop_meta_step pre (Pattern.escape rest) c tokens rec hm]
      have h3 := ih (pre ++ ['[', c, ']']) (tokens ++ [.AnyWithin [.SingleChar c]]) rec
      simp only [List.append_assoc, List.cons_append, List.nil_append,
        List.length_append, List.length_cons, List.length_nil,
        Nat.zero_add] at h3
      rw [h3]
    · rw [if_neg hm, if_neg hm]
      simp only [List.cons_append, List.nil_append]
      rw [new_loop_char_step pre (Pattern.escape rest) c tokens rec hm]
      have h3 := ih (pre ++ [c]) (tokens ++ [.Char c]) rec
      simp only [List.append_assoc, List.cons_append, List.nil_append,
        List.length_append, List.length_cons, List.length_nil,
        Nat.zero_add] at h3
      rw [h3]

/-- A one-character bracket class under default options accepts exactly
that character. -/
theorem in_char_specifiers_single_default (c d : Chr) :
    in_char_specifiers [.SingleChar c] d MatchOptions.new = (d == c) := by
  simp [in_char_specifiers, chars_eq, MatchOptions.new]

/-- Case-sensitive character comparison is plain equality. -/
theorem chars_eq_case_sensitive (a b : Chr) : chars_eq a b true = (a == b) := by
  simp [chars_eq]

/-- The token sequence `escape_tokens s` matches exactly the candidate
`s`, under default options, from any previous character. -/
theorem matches_escape_tokens (s : List Chr) : ∀ (t : List Chr) (prev : Option Chr),
    matches_from MatchOptions.new prev t (escape_tokens s) = .Match ↔ t = s := by
  induction s with
  | nil =>
    intro t prev
    rw [escape_tokens, matches_from]
    cases t <;> simp
  | cons c rest ih =>
    intro t prev
    rw [escape_tokens]
    by_cases hm : c = '?' ∨ c = '*' ∨ c = '[' ∨ c = ']'
    · rw [if_pos hm]
      cases t with
      | nil =>
        rw [matches_from]
        · simp
        all_goals nofun
      | cons d t' =>
        rw [matches_from]
        · simp only [require_literal_new, in_char_specifiers_single_default,
            Bool.not_false, Bool.true_and]
          by_cases hdc : d = c
          · subst hdc
            simp [ih t' (some d)]
          · simp [hdc, beq_eq_false_iff_ne.2 hdc]
        all_goals nofun
    · rw [if_neg hm]
      cases t with
      | nil =>
        rw [matches_from]
        · simp
        all_goals nofun
      | cons d t' =>
        rw [matches_from]
        · simp only [show MatchOptions.new.case_sensitive = true from rfl,
            chars_eq_case_sensitive]
          by_cases hdc : d = c
          · subst hdc
            simp [ih t' (some d)]
          · simp [hdc, beq_eq_false_iff_ne.2 hdc]
        all_goals nofun

/-- C2: for every string `s`, compiling `escape s` succeeds, and the
resulting pattern matches `s` under default options and matches no other
string. -/
theorem escape_round_trip (s : List Chr) :
    ∃ p : Pattern, Pattern.new (Pattern.escape s) = .ok p
      ∧ ∀ t : List Chr, (p.matches t = true ↔ t = s) := by
  refine ⟨⟨Pattern.escape s, escape_tokens s, false⟩, ?_, ?_⟩
  · have h := new_loop_escape s [] [] false
    simpa [Pattern.new] using h
  · intro t
    rw [Pattern.matches, Pattern.matches_with]
    simp only [beq_iff_eq]
    exact matches_escape_tokens s t none

/-! ## C5: consecutive `**` components -/

/-- C5: the collapse guard `tokens_len > 1` fails for a pattern that
*begins* with `**/**` (the preceding `AnyRecursiveSequence` is then the
only token), so compilation produces two adjacent `AnyRecursiveSequence`
tokens, contrary to the source comment "collapse consecutive
AnyRecursiveSequence to a single one"; with any earlier token (as in
`a/**/**`) the collapse does happen. -/
theorem double_recursive_not_collapsed :
    Pattern.new "**/**".toList =
      .ok ⟨"**/**".toList,
        [.AnyRecursiveSequence, .AnyRecursiveSequence], true⟩
    ∧ Pattern.new "a/**/**".toList =
      .ok ⟨"a/**/**".toList,
        [.Char 'a', .Char '/', .AnyRecursiveSequence], true⟩ := by
  constructor
  · simp +decide [Pattern.new, new_loop, star_run_end]
  · simp +decide [Pattern.new, new_loop, star_run_end]

/-! ## C6: unterminated character classes -/

/-- C6: for a `[` opening an unterminated class the compiler reports an
"invalid range pattern" error at the bracket offset when at least three
(non-negated) or four (negated) characters remain, but on the extreme
inputs `[` and `[!` (and `a[`, `a[!`) the wrapped guard arithmetic sends
it into an out-of-bounds index or slice: a panic, not an error. -/
theorem unterminated_class_panics :
    Pattern.new ['['] = .panicked
    ∧ Pattern.new ['[', '!'] = .panicked
    ∧ Pattern.new ['a', '['] = .panicked
    ∧ Pattern.new ['a', '[', '!'] = .panicked
    ∧ Pattern.new "abc[def".toList = .err ⟨3, ERROR_INVALID_RANGE⟩
    ∧ Pattern.new "abc[!def".toList = .err ⟨3, ERROR_INVALID_RANGE⟩
    ∧ Pattern.new "abc[".toList = .err ⟨3, ERROR_INVALID_RANGE⟩
    ∧ Pattern.new "abc[!".toList = .err ⟨3, ERROR_INVALID_RANGE⟩ := by
  refine ⟨?_, ?_, ?_, ?_, ?_, ?_, ?_, ?_⟩ <;>
    simp +decide [Pattern.new, new_loop, star_run_end, position_elem]

/-! ## C7: wildcard error positions -/

/-- C7 counterexample: `a**b` fails as claimed, but the reported position
is 0 — the character `a` — not the offset 1 of the first `*` of the
structurally invalid `**`. -/
theorem wildcard_error_position_counterexample :
    Pattern.new "a**b".toList = .err ⟨0, ERROR_RECURSIVE_WILDCARDS⟩
    ∧ "a**b".toList.getD 0 ' ' = 'a'
    ∧ "a**b".toList.getD 1 ' ' = '*' := by
  refine ⟨?_, by decide, by decide⟩
  simp +decide [Pattern.new, new_loop, star_run_end]

/-- C7 amended: all four patterns fail with the stated error kinds, but
the reported positions are those computed by the scanner: for a run of
more than two `*`, the offset of the third star (`old + 2`); for a `**`
preceded by a non-separator, the offset of the character before the run
(`old - 1`); for a `**` followed by a non-separator, the offset just
after the run; and `**`, `**/x`, `/**/x` compile with
`is_recursive = true`. -/
theorem wildcard_error_positions :
    Pattern.new "a/**b".toList = .err ⟨4, ERROR_RECURSIVE_WILDCARDS⟩
    ∧ Pattern.new "a/bc**".toList = .err ⟨3, ERROR_RECURSIVE_WILDCARDS⟩
    ∧ Pattern.new "a/*****".toList = .err ⟨4, ERROR_WILDCARDS⟩
    ∧ Pattern.new "a**b".toList = .err ⟨0, ERROR_RECURSIVE_WILDCARDS⟩
    ∧ Pattern.new "**".toList =
        .ok ⟨"**".toList, [.AnyRecursiveSequence], true⟩
    ∧ Pattern.new "**/x".toList =
        .ok ⟨"**/x".toList, [.AnyRecursiveSequence, .Char 'x'], true⟩
    ∧ Pattern.new "/**/x".toList =
        .ok ⟨"/**/x".toList, [.Char '/', .AnyRecursiveSequence, .Char 'x'], true⟩ := by
  refine ⟨?_, ?_, ?_, ?_, ?_, ?_, ?_⟩ <;>
    simp +decide [Pattern.new, new_loop, star_run_end]

end Glob

namespace Glob

/-! ## C4: case-insensitive range membership -/

/-- C4 counterexample: under case-insensitive options the mixed-case
range `[a-Z]` is *not* tested case-sensitively by code point: it accepts
`b` (the code lower-cases both endpoints before checking that they are
letters), although by code points `b` lies outside `a..Z`. -/
theorem mixed_case_range_counterexample :
    in_char_specifiers [.CharRange 'a' 'Z'] 'b' ⟨false, false, false⟩ = true
    ∧ in_char_specifiers [.CharRange 'a' 'Z'] 'b' ⟨true, false, false⟩ = false
    ∧ ¬('a' ≤ 'b' ∧ 'b' ≤ 'Z') := by
  refine ⟨by decide, by decide, by decide⟩

/-- For ASCII `x`, the scanner's letter test (lower-cased endpoint differs
from its upper-case) says exactly that `x` is an ASCII letter. -/
theorem lower_ne_upper_iff (x : Chr) (hx : isAscii x = true) :
    (toAsciiLower x ≠ toAsciiUpper (toAsciiLower x)) ↔ isAsciiLetter x = true := by
  have hx' : x.toNat < 128 := by simpa [isAscii] using hx
  have h1 := toAsciiLower_toNat x
  have h2 := toAsciiUpper_toNat (toAsciiLower x)
  rw [Ne, char_eq_iff, isAsciiLetter_toNat]
  by_cases hA : 65 ≤ x.toNat ∧ x.toNat ≤ 90
  · rw [if_pos hA] at h1
    rw [h1] at h2 ⊢
    rw [if_pos (by omega)] at h2
    rw [h2]
    omega
  · rw [if_neg hA] at h1
    rw [h1] at h2 ⊢
    by_cases ha : 97 ≤ x.toNat ∧ x.toNat ≤ 122
    · rw [if_pos ha] at h2
      rw [h2]
      omega
    · rw [if_neg ha] at h2
      rw [h2]
      omega

/-- C4 amended: under case-insensitive options, membership in
`CharRange lo hi` holds iff either (a) the candidate and both endpoints
are ASCII and both endpoints are ASCII letters — of *either* case, so
mixed-case ranges like `[a-Z]` do qualify — and the lower-cased candidate
lies between the lower-cased endpoints, or (b) the candidate lies between
the endpoints by plain code points (this comparison is always performed
as well).  In particular a range with a non-letter or non-ASCII endpoint
is only ever tested case-sensitively by code point. -/
theorem char_range_insensitive_membership (lo hi c : Chr) (o : MatchOptions)
    (hci : o.case_sensitive = false) :
    (in_char_specifiers [.CharRange lo hi] c o = true) ↔
      ((isAscii c = true ∧ isAscii lo = true ∧ isAscii hi = true
        ∧ isAsciiLetter lo = true ∧ isAsciiLetter hi = true
        ∧ toAsciiLower lo ≤ toAsciiLower c ∧ toAsciiLower c ≤ toAsciiLower hi)
       ∨ (lo ≤ c ∧ c ≤ hi)) := by
  simp only [in_char_specifiers, List.any_cons, List.any_nil, Bool.or_false, hci,
    Bool.not_false, Bool.true_and, Bool.or_eq_true, decide_eq_true_eq]
  by_cases hc : isAscii c
  · by_cases hlo : isAscii lo
    · by_cases hhi : isAscii hi
      · rw [if_pos (by rw [hc, hlo, hhi]; rfl)]
        by_cases hlet : (isAsciiLetter lo = true) ∧ (isAsciiLetter hi = true)
        · rw [if_pos ⟨(lower_ne_upper_iff lo hlo).2 hlet.1,
                      (lower_ne_upper_iff hi hhi).2 hlet.2⟩]
          simp only [decide_eq_true_eq]
          constructor
          · rintro (h | h)
            · exact Or.inl ⟨hc, hlo, hhi, hlet.1, hlet.2, h.1, h.2⟩
            · exact Or.inr h
          · rintro (⟨_, _, _, _, _, h1, h2⟩ | h)
            · exact Or.inl ⟨h1, h2⟩
            · exact Or.inr h
        · rw [if_neg (by
            intro hcontra
            exact hlet ⟨(lower_ne_upper_iff lo hlo).1 hcontra.1,
                        (lower_ne_upper_iff hi hhi).1 hcontra.2⟩)]
          simp only [Bool.false_eq_true, false_or]
          constructor
          · exact Or.inr
          · rintro (⟨_, _, _, hl1, hl2, _⟩ | h)
            · exact absurd ⟨hl1, hl2⟩ hlet
            · exact h
      · rw [if_neg (by simp [hhi])]
        simp [hhi]
    · rw [if_neg (by simp [hlo])]
      simp [hlo]
  · rw [if_neg (by simp [hc])]
    simp [hc]

/-- Witness for `char_range_insensitive_membership` at the concrete
mixed-case range `[a-Z]` and candidate `b`. -/
theorem char_range_insensitive_membership_witness :
    (⟨false, false, false⟩ : MatchOptions).case_sensitive = false
    ∧ (in_char_specifiers [.CharRange 'a' 'Z'] 'b' ⟨false, false, false⟩ = true ↔
        ((isAscii 'b' = true ∧ isAscii 'a' = true ∧ isAscii 'Z' = true
          ∧ isAsciiLetter 'a' = true ∧ isAsciiLetter 'Z' = true
          ∧ toAsciiLower 'a' ≤ toAsciiLower 'b' ∧ toAsciiLower 'b' ≤ toAsciiLower 'Z')
         ∨ ('a' ≤ 'b' ∧ 'b' ≤ 'Z'))) :=
  ⟨rfl, char_range_insensitive_membership 'a' 'Z' 'b' ⟨false, false, false⟩ rfl⟩

end Glob

namespace Glob

/-! ## C9: the literal-component fast path of `fill_todo` -/

/-- Every directory listed during a `fill_todo` call lies at or below the
base path. -/
theorem fill_todo_log_extends (fs : Fs) (patterns : List Pattern)
    (options : MatchOptions) :
    ∀ k idx path, patterns.length - idx ≤ k →
      ∀ q ∈ fill_todo_log fs patterns idx path options, path <+: q := by
  intro k
  induction k with
  | zero =>
    intro idx path hk q hq
    rw [fill_todo_log, dif_neg (by omega)] at hq
    simp at hq
  | succ k ih =>
    intro idx path hk q hq
    by_cases hidx : idx < patterns.length
    case neg =>
      rw [fill_todo_log, dif_neg hidx] at hq
      simp at hq
    rw [fill_todo_log, dif_pos hidx] at hq
    cases hps : pattern_as_str (patterns.getD idx default) with
    | some s =>
      rw [hps] at hq
      simp only [] at hq
      split_ifs at hq with h1 h2
      · simp at hq
      · exact (List.prefix_append path [s]).trans
          (ih (idx + 1) (path ++ [s]) (by omega) q hq)
      · simp at hq
    | none =>
      rw [hps] at hq
      simp only [List.mem_cons] at hq
      rcases hq with rfl | hq
      · exact List.prefix_refl _
      · cases hld : list_dir_sorted fs path with
        | none => rw [hld] at hq; simp at hq
        | some entries =>
          rw [hld] at hq
          simp only [] at hq
          split_ifs at hq
          all_goals
            first
            | exact absurd hq (List.not_mem_nil q)
            | (rcases List.mem_append.1 hq with hq2 | hq2
               · first
                 | exact absurd hq2 (List.not_mem_nil q)
                 | exact (List.prefix_append path [['.']]).trans
                     (ih (idx + 1) (path ++ [['.']]) (by omega) q hq2)
               · first
                 | exact absurd hq2 (List.not_mem_nil q)
                 | exact (List.prefix_append path [['.', '.']]).trans
                     (ih (idx + 1) (path ++ [['.', '.']]) (by omega) q hq2))

/-- C9: if the component pattern at `idx` is pure literal characters
(`pattern_as_str` succeeds with string `s`), then `fill_todo` performs no
directory listing for that component — every logged `readdir` target lies
strictly below the base path — and instead joins `s` to the base path,
accepting the joined path iff it exists, except that the literals `.` and
`..` are accepted iff the base path is a directory; on acceptance a last
component is pushed with the sentinel index and a non-last component
recurses into expansion at the next index. -/
theorem literal_component_fast_path (fs : Fs) (todo : List (Path × Nat))
    (patterns : List Pattern) (idx : Nat) (path : Path)
    (options : MatchOptions) (s : Name)
    (hidx : idx < patterns.length)
    (hs : pattern_as_str (patterns.getD idx default) = some s) :
    (fill_todo fs todo patterns idx path options =
      if ((s = ['.'] ∨ s = ['.', '.']) ∧ fs.is_dir path)
          ∨ (¬(s = ['.'] ∨ s = ['.', '.']) ∧ fs.exists_path (path ++ [s])) then
        if idx + 1 = patterns.length then todo ++ [(path ++ [s], sentinel)]
        else fill_todo fs todo patterns (idx + 1) (path ++ [s]) options
      else todo)
    ∧ (∀ q ∈ fill_todo_log fs patterns idx path options,
        path <+: q ∧ path ≠ q) := by
  constructor
  · rw [fill_todo, dif_pos hidx, hs]
  · intro q hq
    rw [fill_todo_log, dif_pos hidx, hs] at hq
    simp only [] at hq
    split_ifs at hq with h1 h2
    · simp at hq
    · have h := fill_todo_log_extends fs patterns options
        (patterns.length - (idx + 1)) (idx + 1) (path ++ [s]) (le_refl _) q hq
      refine ⟨(List.prefix_append path [s]).trans h, ?_⟩
      intro heq
      have hlen := h.length_le
      simp [← heq] at hlen
    · simp at hq

/-- Witness for `literal_component_fast_path`: pattern component `f`,
base path `.`, on the concrete filesystem `fs_ex`. -/
theorem literal_component_fast_path_witness :
    (fill_todo fs_ex [] [(⟨['f'], [.Char 'f'], false⟩ : Pattern)] 0 [['.']]
        MatchOptions.new =
      if (((['f'] : Name) = ['.'] ∨ (['f'] : Name) = ['.', '.'])
            ∧ fs_ex.is_dir [['.']])
          ∨ (¬((['f'] : Name) = ['.'] ∨ (['f'] : Name) = ['.', '.'])
            ∧ fs_ex.exists_path ([['.']] ++ [['f']])) then
        if 0 + 1 = [(⟨['f'], [.Char 'f'], false⟩ : Pattern)].length then
          [] ++ [(([['.']] ++ [['f']] : Path), sentinel)]
        else fill_todo fs_ex [] [(⟨['f'], [.Char 'f'], false⟩ : Pattern)] (0 + 1)
          ([['.']] ++ [['f']]) MatchOptions.new
      else [])
    ∧ (∀ q ∈ fill_todo_log fs_ex [(⟨['f'], [.Char 'f'], false⟩ : Pattern)] 0 [['.']]
        MatchOptions.new, [['.']] <+: q ∧ ([['.']] : Path) ≠ q) :=
  literal_component_fast_path fs_ex [] [⟨['f'], [.Char 'f'], false⟩] 0 [['.']]
    MatchOptions.new ['f'] (by decide) rfl

end Glob

namespace Glob

/-! ## C10: trailing separator and the `require_dir` filter -/

set_option maxRecDepth 10000 in
/-- C10 counterexample: for the pattern `**/` (trailing separator, so
`require_dir` is set) the recursive-and-last yield site returns paths
without any directory check: on `fs_ex` the plain file `./f` is yielded
alongside the directory `./d`. -/
theorem require_dir_recursive_counterexample :
    glob_with fs_ex ['*', '*', '/'] MatchOptions.new =
      .ok ⟨[⟨['*', '*'], [.AnyRecursiveSequence], true⟩], true, MatchOptions.new,
        [([['.'], ['f']], 0), ([['.'], ['d']], 0)]⟩
    ∧ collect_paths fs_ex 10
        ⟨[⟨['*', '*'], [.AnyRecursiveSequence], true⟩], true, MatchOptions.new,
          [([['.'], ['f']], 0), ([['.'], ['d']], 0)]⟩ =
        [[['.'], ['d']], [['.'], ['f']]]
    ∧ fs_ex.is_dir [['.'], ['f']] = false := by
  have h2 : Pattern.new ['*', '*'] = .ok ⟨['*', '*'], [.AnyRecursiveSequence], true⟩ := by
    simp +decide [Pattern.new, new_loop, star_run_end]
  have h1 : Pattern.new ['*', '*', '/'] =
      .ok ⟨['*', '*', '/'], [.AnyRecursiveSequence], true⟩ := by
    simp +decide [Pattern.new, new_loop, star_run_end]
  have hfill : fill_todo fs_ex [] [⟨['*', '*'], [.AnyRecursiveSequence], true⟩] 0 [['.']]
      MatchOptions.new = [([['.'], ['f']], 0), ([['.'], ['d']], 0)] := by
    simp +decide [fill_todo, pattern_as_str, pattern_as_str_go, list_dir_sorted, fs_ex,
      List.mergeSort, strLt]
  refine ⟨?_, ?_, by decide⟩
  · rw [glob_with, h1]
    simp only []
    rw [show split_terminator_sep ((['*', '*', '/'] : List Chr).drop
        (min (if (['*', '*', '/'] : List Chr).head? = some '/' then 1 else 0)
          (['*', '*', '/'] : List Chr).length))
        = [['*', '*']] from by decide]
    rw [show ([['*', '*']] : List (List Chr)).mapM (fun s =>
        match Pattern.new s with | .ok p => some p | _ => none)
        = some [(⟨['*', '*'], [.AnyRecursiveSequence], true⟩ : Pattern)] from by
      simp [List.mapM, List.mapM.loop, h2]]
    simp only []
    rw [if_pos (by decide :
      ([(⟨['*', '*'], [.AnyRecursiveSequence], true⟩ : Pattern)]).length < sentinel)]
    rw [if_pos (by decide :
      ([(⟨['*', '*'], [.AnyRecursiveSequence], true⟩ : Pattern)]).length > 0)]
    rw [show (if (['*', '*', '/'] : List Chr).head? = some '/' then ([['/']] : Path)
        else [['.']]) = [['.']] from by decide]
    rw [hfill]
    rfl
  · have hd : list_dir_sorted fs_ex [['.'], ['d']] = some [] := by
      simp +decide [list_dir_sorted, fs_ex, List.mergeSort]
    have hf : list_dir_sorted fs_ex [['.'], ['f']] = none := by
      simp +decide [list_dir_sorted, fs_ex]
    have hs0 : paths_step fs_ex
        ⟨[⟨['*', '*'], [.AnyRecursiveSequence], true⟩], true, MatchOptions.new,
          [([['.'], ['f']], 0), ([['.'], ['d']], 0)]⟩ =
        (.yield [['.'], ['d']],
         ⟨[⟨['*', '*'], [.AnyRecursiveSequence], true⟩], true, MatchOptions.new,
          [([['.'], ['f']], 0)]⟩) := by
      simp +decide [paths_step, fill_todo, pattern_as_str, pattern_as_str_go,
        next_non_recursive, filename, hd, sentinel]
    have hs1 : paths_step fs_ex
        ⟨[⟨['*', '*'], [.AnyRecursiveSequence], true⟩], true, MatchOptions.new,
          [([['.'], ['f']], 0)]⟩ =
        (.yield [['.'], ['f']],
         ⟨[⟨['*', '*'], [.AnyRecursiveSequence], true⟩], true, MatchOptions.new, []⟩) := by
      simp +decide [paths_step, fill_todo, pattern_as_str, pattern_as_str_go,
        next_non_recursive, filename, hf, sentinel]
    have hs2 : paths_step fs_ex
        ⟨[⟨['*', '*'], [.AnyRecursiveSequence], true⟩], true, MatchOptions.new, []⟩ =
        (.done,
         ⟨[⟨['*', '*'], [.AnyRecursiveSequence], true⟩], true, MatchOptions.new, []⟩) := by
      simp [paths_step]
    simp [collect_paths, hs0, hs1, hs2]

/-- C10 amended: `glob_with` sets `require_dir` exactly for a pattern
whose last character is a separator; the sentinel yield site and the
non-recursive yield site honor it (a non-directory is discarded), and
without a trailing separator sentinel entries are yielded
unconditionally — but the recursive-component yield sites (an
(effectively) last recursive component) yield without the directory
check, as the counterexample shows. -/
theorem require_dir_guard :
    (∀ fs pattern options st, glob_with fs pattern options = .ok st →
      (st.require_dir = true ↔ pattern.getLast?.map is_sep = some true))
    ∧ (∀ fs (st : Paths) rest path, st.todo = rest ++ [(path, sentinel)] →
        st.dir_patterns ≠ [] → st.require_dir = true → fs.is_dir path = false →
        (paths_step fs st).1 = .skip)
    ∧ (∀ fs (st : Paths) rest path, st.todo = rest ++ [(path, sentinel)] →
        st.dir_patterns ≠ [] → st.require_dir = false →
        (paths_step fs st).1 = .yield path)
    ∧ (∀ fs (st : Paths) rest path idx, st.todo = rest ++ [(path, idx)] →
        idx ≠ sentinel → (st.dir_patterns.getD idx default).is_recursive = false →
        st.dir_patterns ≠ [] → st.require_dir = true → fs.is_dir path = false →
        (paths_step fs st).1 = .skip) := by
  refine ⟨?_, ?_, ?_, ?_⟩
  · intro fs pattern options st h
    rw [glob_with] at h
    split at h
    · simp at h
    · simp at h
    · split at h
      · simp at h
      · split_ifs at h
        all_goals first
          | (injection h with h2; subst h2; simp [beq_iff_eq])
          | simp at h
  · intro fs st rest path htodo hdp hrd hdir
    rw [paths_step]
    rw [if_neg (by simp [htodo, List.isEmpty_iff, hdp])]
    rw [htodo, List.getLast?_concat]
    simp only []
    simp [hrd, hdir]
  · intro fs st rest path htodo hdp hrd
    rw [paths_step]
    rw [if_neg (by simp [htodo, List.isEmpty_iff, hdp])]
    rw [htodo, List.getLast?_concat]
    simp only []
    simp [hrd]
  · intro fs st rest path idx htodo hsent hrec hdp hrd hdir
    rw [paths_step]
    rw [if_neg (by simp [htodo, List.isEmpty_iff, hdp])]
    rw [htodo, List.getLast?_concat]
    simp only []
    rw [if_neg hsent]
    rw [if_neg (by intro hcon; rw [hrec] at hcon; simp at hcon)]
    rw [if_neg (by intro hcon; rw [hrec] at hcon; simp at hcon)]
    cases hf : filename path with
    | none => rfl
    | some x =>
      simp only []
      split_ifs <;> simp_all

/-- Witness for `require_dir_guard`: on `fs_ex`, a sentinel entry for the
plain file `./f` is discarded when `require_dir` is set. -/
theorem require_dir_guard_witness :
    (paths_step fs_ex ⟨[(⟨['f'], [.Char 'f'], false⟩ : Pattern)], true,
        MatchOptions.new, [([['.'], ['f']], sentinel)]⟩).1 = .skip :=
  require_dir_guard.2.1 fs_ex
    ⟨[⟨['f'], [.Char 'f'], false⟩], true, MatchOptions.new,
      [([['.'], ['f']], sentinel)]⟩
    [] [['.'], ['f']] rfl (by simp) rfl (by decide)

end Glob

namespace Glob

/-! ## C3: `glob_with` and `require_literal_separator`

The stored options are consulted only through `matches_with` on single
path-component names (directory entries and the synthetic `.`/`..`),
which contain no separator, so flipping `require_literal_separator`
cannot change any outcome. -/

/-- On a candidate character that is not a separator, the
`require_literal` guard does not depend on `require_literal_separator`. -/
theorem require_literal_rls (o : MatchOptions) (b : Bool) (prev : Option Chr)
    (c : Chr) (hc : c ≠ '/') :
    require_literal { o with require_literal_separator := b } prev c =
      require_literal o prev c := by
  simp [require_literal, is_sep, hc]

/-- Class membership reads only `case_sensitive`. -/
theorem in_char_specifiers_rls (specs : List CharSpecifier) (c : Chr)
    (o : MatchOptions) (b : Bool) :
    in_char_specifiers specs c { o with require_literal_separator := b } =
      in_char_specifiers specs c o := rfl

/-- The record update for `require_literal_separator` leaves
`case_sensitive` unchanged. -/
theorem rls_update_cs (o : MatchOptions) (b : Bool) :
    ({ o with require_literal_separator := b } : MatchOptions).case_sensitive =
      o.case_sensitive := rfl

/-- `matches_from` on a separator-free candidate does not depend on
`require_literal_separator`.  The bound `N` on `file.length +
tokens.length` drives the induction (every recursive call decreases it). -/
theorem matches_from_rls (o : MatchOptions) (b : Bool) :
    ∀ (N : Nat) (file : List Chr) (tokens : List PatternToken) (prev : Option Chr),
      file.length + tokens.length ≤ N → (∀ c ∈ file, c ≠ '/') →
      matches_from { o with require_literal_separator := b } prev file tokens =
        matches_from o prev file tokens := by
  intro N
  induction N with
  | zero =>
    intro file tokens prev hN hsep
    have hf : file = [] := by cases file <;> simp_all
    have ht : tokens = [] := by cases tokens <;> simp_all
    subst hf; subst ht
    rw [matches_from.eq_1, matches_from.eq_1]
  | succ N ih =>
    intro file tokens prev hN hsep
    cases tokens with
    | nil => rw [matches_from.eq_1, matches_from.eq_1]
    | cons token rest =>
      have hrest : file.length + rest.length ≤ N := by
        simp only [List.length_cons] at hN; omega
      cases token with
      | AnySequence =>
        cases file with
        | nil =>
          rw [matches_from.eq_2, matches_from.eq_2]
          rw [ih [] rest prev hrest hsep]
        | cons c next =>
          have hc : c ≠ '/' := hsep c (by simp)
          have hnext : ∀ d ∈ next, d ≠ '/' := fun d hd => hsep d (by simp [hd])
          rw [matches_from.eq_3, matches_from.eq_3]
          rw [ih (c :: next) rest prev hrest hsep]
          cases hres : matches_from o prev (c :: next) rest <;> simp only []
          case SubPatternDoesntMatch =>
            simp only [require_literal_rls o b prev c hc]
            rw [ih next (.AnySequence :: rest) (some c)
              (by simp only [List.length_cons] at hN ⊢; omega) hnext]
      | AnyRecursiveSequence =>
        cases file with
        | nil =>
          rw [matches_from.eq_4, matches_from.eq_4]
          rw [ih [] rest prev hrest hsep]
        | cons c next =>
          have hc : c ≠ '/' := hsep c (by simp)
          have hnext : ∀ d ∈ next, d ≠ '/' := fun d hd => hsep d (by simp [hd])
          rw [matches_from.eq_5, matches_from.eq_5]
          rw [ih (c :: next) rest prev hrest hsep]
          cases hres : matches_from o prev (c :: next) rest <;> simp only []
          case SubPatternDoesntMatch =>
            simp only [require_literal_rls o b prev c hc]
            rw [ih next (.AnyRecursiveSequence :: rest) (some c)
              (by simp only [List.length_cons] at hN ⊢; omega) hnext]
      | AnyChar =>
        cases file with
        | nil =>
          rw [matches_from.eq_6 _ prev _ rest (by nofun) (by nofun),
            matches_from.eq_6 o prev _ rest (by nofun) (by nofun)]
        | cons c next =>
          have hc : c ≠ '/' := hsep c (by simp)
          have hnext : ∀ d ∈ next, d ≠ '/' := fun d hd => hsep d (by simp [hd])
          rw [matches_from.eq_7, matches_from.eq_7]
          simp only [require_literal_rls o b prev c hc]
          rw [ih next rest (some c) (by simp only [List.length_cons] at hN ⊢; omega) hnext]
      | AnyWithin specs =>
        cases file with
        | nil =>
          rw [matches_from.eq_6 _ prev _ rest (by nofun) (by nofun),
            matches_from.eq_6 o prev _ rest (by nofun) (by nofun)]
        | cons c next =>
          have hc : c ≠ '/' := hsep c (by simp)
          have hnext : ∀ d ∈ next, d ≠ '/' := fun d hd => hsep d (by simp [hd])
          rw [matches_from.eq_8, matches_from.eq_8]
          simp only [require_literal_rls o b prev c hc, in_char_specifiers_rls]
          rw [ih next rest (some c) (by simp only [List.length_cons] at hN ⊢; omega) hnext]
      | AnyExcept specs =>
        cases file with
        | nil =>
          rw [matches_from.eq_6 _ prev _ rest (by nofun) (by nofun),
            matches_from.eq_6 o prev _ rest (by nofun) (by nofun)]
        | cons c next =>
          have hc : c ≠ '/' := hsep c (by simp)
          have hnext : ∀ d ∈ next, d ≠ '/' := fun d hd => hsep d (by simp [hd])
          rw [matches_from.eq_9, matches_from.eq_9]
          simp only [require_literal_rls o b prev c hc, in_char_specifiers_rls]
          rw [ih next rest (some c) (by simp only [List.length_cons] at hN ⊢; omega) hnext]
      | Char c2 =>
        cases file with
        | nil =>
          rw [matches_from.eq_6 _ prev _ rest (by nofun) (by nofun),
            matches_from.eq_6 o prev _ rest (by nofun) (by nofun)]
        | cons c next =>
          have hnext : ∀ d ∈ next, d ≠ '/' := fun d hd => hsep d (by simp [hd])
          rw [matches_from.eq_10, matches_from.eq_10]
          simp only [rls_update_cs]
          rw [ih next rest (some c) (by simp only [List.length_cons] at hN ⊢; omega) hnext]

/-- `matches_with` on a separator-free candidate does not depend on
`require_literal_separator`. -/
theorem matches_with_rls (p : Pattern) (x : List Chr) (o : MatchOptions)
    (b : Bool) (hsep : ∀ c ∈ x, c ≠ '/') :
    p.matches_with x { o with require_literal_separator := b } =
      p.matches_with x o := by
  rw [Pattern.matches_with, Pattern.matches_with,
    matches_from_rls o b (x.length + p.tokens.length) x p.tokens none (le_refl _) hsep]


/-- `fill_todo` does not depend on `require_literal_separator`: the only
candidates it matches are the separator-free `.` and `..`. -/
theorem fill_todo_rls (fs : Fs) (patterns : List Pattern) (o : MatchOptions) (b : Bool) :
    ∀ (k idx : Nat), patterns.length - idx ≤ k →
      ∀ (todo : List (Path × Nat)) (path : Path),
      fill_todo fs todo patterns idx path { o with require_literal_separator := b } =
        fill_todo fs todo patterns idx path o := by
  intro k
  induction k with
  | zero =>
    intro idx hk todo path
    rw [fill_todo.eq_1, fill_todo.eq_1, dif_neg (by omega), dif_neg (by omega)]
  | succ k ih =>
    intro idx hk todo path
    by_cases hidx : idx < patterns.length
    · have H : ∀ (todo2 : List (Path × Nat)) (path2 : Path),
          fill_todo fs todo2 patterns (idx + 1) path2
              { o with require_literal_separator := b } =
            fill_todo fs todo2 patterns (idx + 1) path2 o :=
        fun todo2 path2 => ih (idx + 1) (by omega) todo2 path2
      rw [fill_todo.eq_1, fill_todo.eq_1, dif_pos hidx, dif_pos hidx]
      cases hps : pattern_as_str (patterns.getD idx default) with
      | some s =>
        simp only []
        split_ifs with h1 h2
        · rfl
        · exact H todo (path ++ [s])
        · rfl
      | none =>
        simp only []
        cases hld : list_dir_sorted fs path with
        | none => rfl
        | some entries =>
          simp only []
          by_cases hhead : (patterns.getD idx default).tokens.head? = some (.Char '.')
          · rw [if_pos hhead, if_pos hhead]
            rw [matches_with_rls (patterns.getD idx default) ['.', '.'] o b (by decide),
              matches_with_rls (patterns.getD idx default) ['.'] o b (by decide)]
            simp only [H]
          · rw [if_neg hhead, if_neg hhead]
    · rw [fill_todo.eq_1, fill_todo.eq_1, dif_neg hidx, dif_neg hidx]

/-- Appending a sentinel entry preserves the separator-free invariant. -/
theorem sepfree_append_sentinel (todo : List (Path × Nat)) (p : Path)
    (hT : TodoSepFree todo) : TodoSepFree (todo ++ [(p, sentinel)]) := by
  intro e he hsent
  rcases List.mem_append.1 he with h | h
  · exact hT e h hsent
  · simp only [List.mem_singleton] at h
    subst h
    exact absurd rfl hsent

/-- On a well-formed filesystem, `fill_todo` preserves the separator-free
invariant: pushed children carry a listed name as final component, and
the special pushes carry the sentinel. -/
theorem fill_todo_sepfree (fs : Fs) (hWF : Fs.WF fs) (patterns : List Pattern)
    (o : MatchOptions) :
    ∀ (k idx : Nat), patterns.length - idx ≤ k →
      ∀ (todo : List (Path × Nat)) (path : Path), TodoSepFree todo →
      TodoSepFree (fill_todo fs todo patterns idx path o) := by
  intro k
  induction k with
  | zero =>
    intro idx hk todo path hT
    rw [fill_todo.eq_1, dif_neg (by omega)]
    exact hT
  | succ k ih =>
    intro idx hk todo path hT
    by_cases hidx : idx < patterns.length
    · rw [fill_todo.eq_1, dif_pos hidx]
      cases hps : pattern_as_str (patterns.getD idx default) with
      | some s =>
        simp only []
        split_ifs with h1 h2
        · exact sepfree_append_sentinel todo (path ++ [s]) hT
        · exact ih (idx + 1) (by omega) todo (path ++ [s]) hT
        · exact hT
      | none =>
        simp only []
        cases hld : list_dir_sorted fs path with
        | none => exact hT
        | some entries =>
          simp only []
          have hbase : TodoSepFree (todo ++ entries.map fun x => (path ++ [x], idx)) := by
            intro e he hsent
            rcases List.mem_append.1 he with h | h
            · exact hT e h hsent
            · rcases List.mem_map.1 h with ⟨x, hx, rfl⟩
              refine ⟨path, x, rfl, ?_⟩
              obtain ⟨children, hc, hentries⟩ : ∃ children,
                  fs.list_children path = some children ∧
                    entries = children.mergeSort fun p1 p2 => !strLt p1 p2 := by
                unfold list_dir_sorted at hld
                cases hc : fs.list_children path with
                | none => rw [hc] at hld; exact absurd hld (by simp)
                | some children =>
                  rw [hc] at hld
                  exact ⟨children, rfl, (Option.some.inj hld).symm⟩
              have hxc : x ∈ children := by
                rw [hentries] at hx
                exact ((List.mergeSort_perm children _).mem_iff).1 hx
              have hprops := (hWF path children hc).2 x hxc
              exact fun c hcx hce => hprops.2.2 (hce ▸ hcx)
          by_cases hhead : (patterns.getD idx default).tokens.head? = some (.Char '.')
          · rw [if_pos hhead]
            have hmid : TodoSepFree
                ((if (patterns.getD idx default).matches_with ['.'] o = true then
                    fun todo1 =>
                      if idx + 1 = patterns.length then todo1 ++ [(path ++ [['.']], sentinel)]
                      else fill_todo fs todo1 patterns (idx + 1) (path ++ [['.']]) o
                  else id)
                  (todo ++ entries.map fun x => (path ++ [x], idx))) := by
              by_cases h1 : (patterns.getD idx default).matches_with ['.'] o = true
              · rw [if_pos h1]
                by_cases h2 : idx + 1 = patterns.length
                · rw [if_pos h2]
                  exact sepfree_append_sentinel _ _ hbase
                · rw [if_neg h2]
                  exact ih (idx + 1) (by omega) _ (path ++ [['.']]) hbase
              · rw [if_neg h1]
                exact hbase
            by_cases h3 : (patterns.getD idx default).matches_with ['.', '.'] o = true
            · rw [if_pos h3]
              by_cases h4 : idx + 1 = patterns.length
              · rw [if_pos h4]
                exact sepfree_append_sentinel _ _ hmid
              · rw [if_neg h4]
                exact ih (idx + 1) (by omega) _ (path ++ [['.', '.']]) hmid
            · rw [if_neg h3]
              exact hmid
          · rw [if_neg hhead]
            exact hbase
    · rw [fill_todo.eq_1, dif_neg hidx]
      exact hT

/-- One `Paths` iterator step does not depend on
`require_literal_separator` (on a well-formed filesystem, given the
separator-free stack invariant): same outcome, same new stack, and the
invariant is preserved. -/
theorem paths_step_rls (fs : Fs) (hWF : Fs.WF fs) (dp : List Pattern) (rd : Bool)
    (o : MatchOptions) (b : Bool) (todo : List (Path × Nat)) (hT : TodoSepFree todo) :
    (paths_step fs ⟨dp, rd, { o with require_literal_separator := b }, todo⟩).1 =
      (paths_step fs ⟨dp, rd, o, todo⟩).1 ∧
    ∃ T, (paths_step fs ⟨dp, rd, { o with require_literal_separator := b }, todo⟩).2 =
        ⟨dp, rd, { o with require_literal_separator := b }, T⟩ ∧
      (paths_step fs ⟨dp, rd, o, todo⟩).2 = ⟨dp, rd, o, T⟩ ∧
      TodoSepFree T := by
  have hTd : TodoSepFree todo.dropLast :=
    fun e he hs => hT e (List.dropLast_subset _ he) hs
  rw [paths_step, paths_step]
  simp only []
  by_cases hemp : dp.isEmpty = true ∨ todo.isEmpty = true
  · rw [if_pos hemp, if_pos hemp]
    exact ⟨rfl, todo, rfl, rfl, hT⟩
  · rw [if_neg hemp, if_neg hemp]
    cases hl : todo.getLast? with
    | none => exact ⟨rfl, todo, rfl, rfl, hT⟩
    | some e =>
      obtain ⟨path, idx⟩ := e
      simp only []
      by_cases hsent : idx = sentinel
      · rw [if_pos hsent, if_pos hsent]
        by_cases hskip : rd = true ∧ ¬ fs.is_dir path = true
        · rw [if_pos hskip, if_pos hskip]
          exact ⟨rfl, todo.dropLast, rfl, rfl, hTd⟩
        · rw [if_neg hskip, if_neg hskip]
          exact ⟨rfl, todo.dropLast, rfl, rfl, hTd⟩
      · rw [if_neg hsent, if_neg hsent]
        obtain ⟨q, n, hqn, hn⟩ :=
          hT (path, idx) (List.mem_of_mem_getLast? hl) hsent
        simp only [] at hqn
        subst hqn
        have hfile : filename (q ++ [n]) = some n := by
          simp [filename]
        by_cases hrec1 : (dp.getD idx default).is_recursive = true ∧ ¬ idx = dp.length - 1
        · rw [if_pos hrec1, if_pos hrec1]
          by_cases hnext : next_non_recursive dp (idx + 1) = dp.length
          · rw [if_pos hnext, if_pos hnext]
            have hfill := fill_todo_rls fs dp o b dp.length
              (next_non_recursive dp (idx + 1) - 1) (by omega) todo.dropLast (q ++ [n])
            exact ⟨rfl, _, by rw [hfill], rfl,
              fill_todo_sepfree fs hWF dp o dp.length _ (by omega) _ _ hTd⟩
          · rw [if_neg hnext, if_neg hnext]
            rw [hfile]
            simp only []
            rw [matches_with_rls
              (dp.getD (next_non_recursive dp (idx + 1)) default) n o b hn]
            by_cases hm : (dp.getD (next_non_recursive dp (idx + 1))
                default).matches_with n o = true
            · rw [if_pos hm, if_pos hm]
              by_cases hlast : next_non_recursive dp (idx + 1) = dp.length - 1
              · rw [if_pos hlast, if_pos hlast]
                by_cases hyield : ¬ rd = true ∨ fs.is_dir (q ++ [n]) = true
                · rw [if_pos hyield, if_pos hyield]
                  exact ⟨rfl, todo.dropLast, rfl, rfl, hTd⟩
                · rw [if_neg hyield, if_neg hyield]
                  exact ⟨rfl, todo.dropLast, rfl, rfl, hTd⟩
              · rw [if_neg hlast, if_neg hlast]
                have hfill := fill_todo_rls fs dp o b dp.length
                  (next_non_recursive dp (idx + 1) + 1) (by omega) todo.dropLast (q ++ [n])
                exact ⟨rfl, _, by rw [hfill], rfl,
                  fill_todo_sepfree fs hWF dp o dp.length _ (by omega) _ _ hTd⟩
            · rw [if_neg hm, if_neg hm]
              by_cases hlast : next_non_recursive dp (idx + 1) - 1 = dp.length - 1
              · rw [if_pos hlast, if_pos hlast]
                by_cases hyield : ¬ rd = true ∨ fs.is_dir (q ++ [n]) = true
                · rw [if_pos hyield, if_pos hyield]
                  exact ⟨rfl, todo.dropLast, rfl, rfl, hTd⟩
                · rw [if_neg hyield, if_neg hyield]
                  exact ⟨rfl, todo.dropLast, rfl, rfl, hTd⟩
              · rw [if_neg hlast, if_neg hlast]
                have hfill := fill_todo_rls fs dp o b dp.length
                  (next_non_recursive dp (idx + 1) - 1) (by omega) todo.dropLast (q ++ [n])
                exact ⟨rfl, _, by rw [hfill], rfl,
                  fill_todo_sepfree fs hWF dp o dp.length _ (by omega) _ _ hTd⟩
        · rw [if_neg hrec1, if_neg hrec1]
          by_cases hrec2 : (dp.getD idx default).is_recursive = true ∧ idx = dp.length - 1
          · rw [if_pos hrec2, if_pos hrec2]
            have hfill := fill_todo_rls fs dp o b dp.length idx (by omega)
              todo.dropLast (q ++ [n])
            exact ⟨rfl, _, by rw [hfill], rfl,
              fill_todo_sepfree fs hWF dp o dp.length _ (by omega) _ _ hTd⟩
          · rw [if_neg hrec2, if_neg hrec2]
            rw [hfile]
            simp only []
            rw [matches_with_rls (dp.getD idx default) n o b hn]
            by_cases hm : (dp.getD idx default).matches_with n o = true
            · rw [if_pos hm, if_pos hm]
              by_cases hlast : idx = dp.length - 1
              · rw [if_pos hlast, if_pos hlast]
                by_cases hyield : ¬ rd = true ∨ fs.is_dir (q ++ [n]) = true
                · rw [if_pos hyield, if_pos hyield]
                  exact ⟨rfl, todo.dropLast, rfl, rfl, hTd⟩
                · rw [if_neg hyield, if_neg hyield]
                  exact ⟨rfl, todo.dropLast, rfl, rfl, hTd⟩
              · rw [if_neg hlast, if_neg hlast]
                have hfill := fill_todo_rls fs dp o b dp.length (idx + 1) (by omega)
                  todo.dropLast (q ++ [n])
                exact ⟨rfl, _, by rw [hfill], rfl,
                  fill_todo_sepfree fs hWF dp o dp.length _ (by omega) _ _ hTd⟩
            · rw [if_neg hm, if_neg hm]
              exact ⟨rfl, todo.dropLast, rfl, rfl, hTd⟩

/-- The whole traversal does not depend on `require_literal_separator`
(well-formed filesystem, separator-free stack). -/
theorem collect_paths_rls (fs : Fs) (hWF : Fs.WF fs) :
    ∀ (fuel : Nat) (dp : List Pattern) (rd : Bool) (o : MatchOptions) (b : Bool)
      (todo : List (Path × Nat)), TodoSepFree todo →
      collect_paths fs fuel ⟨dp, rd, { o with require_literal_separator := b }, todo⟩ =
        collect_paths fs fuel ⟨dp, rd, o, todo⟩ := by
  intro fuel
  induction fuel with
  | zero => intro dp rd o b todo hT; rfl
  | succ fuel ih =>
    intro dp rd o b todo hT
    obtain ⟨h1, T, h2, h3, hT'⟩ := paths_step_rls fs hWF dp rd o b todo hT
    cases hP2 : paths_step fs ⟨dp, rd, o, todo⟩ with
    | mk r st2 =>
      rw [hP2] at h3
      simp only [] at h3
      subst h3
      have h1' : (paths_step fs
          ⟨dp, rd, { o with require_literal_separator := b }, todo⟩).1 = r := by
        rw [h1, hP2]
      have hP1 : paths_step fs
          ⟨dp, rd, { o with require_literal_separator := b }, todo⟩ =
            (r, ⟨dp, rd, { o with require_literal_separator := b }, T⟩) := by
        rw [← h1', ← h2]
      rw [collect_paths, collect_paths, hP1, hP2]
      cases r with
      | done => rfl
      | skip => exact ih dp rd o b T hT'
      | yield p => exact congrArg (List.cons p) (ih dp rd o b T hT')

/-- The example filesystem is well-formed. -/
theorem fs_ex_WF : Fs.WF fs_ex := by
  intro p ns h
  simp only [fs_ex] at h
  split_ifs at h with h1 h2
  · injection h with h3
    subst h3
    exact ⟨by decide, by decide⟩
  · injection h with h3
    subst h3
    exact ⟨by decide, by decide⟩

/-- C3: for every pattern and options `o`, on a well-formed filesystem the
traversal yields the same path sequence as with `require_literal_separator`
forced to `true`: the stored options are only ever applied to single,
separator-free component names, so the flag is never consulted. -/
theorem glob_rls_irrelevant (fs : Fs) (hWF : Fs.WF fs) (pattern : List Chr)
    (o : MatchOptions) (fuel : Nat) :
    glob_run fs pattern o fuel =
      glob_run fs pattern { o with require_literal_separator := true } fuel := by
  rw [glob_run, glob_run, glob_with, glob_with]
  cases hP : Pattern.new pattern with
  | err e => rfl
  | panicked => rfl
  | ok p =>
    simp only []
    cases hM : (split_terminator_sep (pattern.drop
        (min (if pattern.head? = some '/' then 1 else 0) pattern.length))).mapM
        (fun s => match Pattern.new s with | .ok p2 => some p2 | _ => none) with
    | none => rfl
    | some dps =>
      simp only []
      by_cases hA : dps.length < sentinel
      · rw [if_pos hA, if_pos hA]
        simp only []
        by_cases hl : dps.length > 0
        · rw [if_pos hl, if_pos hl]
          rw [fill_todo_rls fs dps o true dps.length 0 (by omega) []
            (if pattern.head? = some '/' then [['/']] else [['.']])]
          have hTF : TodoSepFree (fill_todo fs [] dps 0
              (if pattern.head? = some '/' then [['/']] else [['.']]) o) :=
            fill_todo_sepfree fs hWF dps o dps.length 0 (by omega) [] _
              (fun e he => absurd he (List.not_mem_nil e))
          rw [collect_paths_rls fs hWF fuel dps _ o true _ hTF]
        · rw [if_neg hl, if_neg hl]
          rw [collect_paths_rls fs hWF fuel dps _ o true []
            (fun e he => absurd he (List.not_mem_nil e))]
      · rw [if_neg hA, if_neg hA]

/-- Witness for `glob_rls_irrelevant`: on the example filesystem, `*` with
`require_literal_separator` off and on gives the same sequence. -/
theorem glob_rls_irrelevant_witness :
    Fs.WF fs_ex ∧
    glob_run fs_ex ['*'] ⟨true, false, false⟩ 5 =
      glob_run fs_ex ['*'] ⟨true, true, false⟩ 5 :=
  ⟨fs_ex_WF, glob_rls_irrelevant fs_ex fs_ex_WF ['*'] ⟨true, false, false⟩ 5⟩

/-! ## C8: the order in which paths are yielded -/

/-- `strLt` is asymmetric. -/
theorem strLt_asymm : ∀ (a b : Name), strLt a b = true → strLt b a = false
  | [], [] => by simp [strLt]
  | [], _ :: _ => by simp [strLt]
  | _ :: _, [] => by simp [strLt]
  | a :: as, b :: bs => by
    intro h
    rw [strLt] at h ⊢
    rcases lt_trichotomy a b with hab | hab | hab
    · rw [if_neg (lt_asymm hab), if_pos hab]
    · subst hab
      rw [if_neg (lt_irrefl a), if_neg (lt_irrefl a)] at h ⊢
      exact strLt_asymm as bs h
    · rw [if_neg (lt_asymm hab), if_pos hab] at h
      exact absurd h (by simp)

/-- `strLt` is transitive. -/
theorem strLt_trans : ∀ (a b c : Name),
    strLt a b = true → strLt b c = true → strLt a c = true
  | [], [], _ => by simp [strLt]
  | [], _ :: _, [] => by intro _ h2; exact absurd h2 (by simp [strLt])
  | [], _ :: _, _ :: _ => by intro _ _; simp [strLt]
  | _ :: _, [], _ => by intro h1 _; exact absurd h1 (by simp [strLt])
  | _ :: _, _ :: _, [] => by intro _ h2; exact absurd h2 (by simp [strLt])
  | a :: as, b :: bs, c :: cs => by
    intro h1 h2
    rw [strLt] at h1 h2 ⊢
    rcases lt_trichotomy a b with hab | hab | hab
    · rcases lt_trichotomy b c with hbc | hbc | hbc
      · rw [if_pos (hab.trans hbc)]
      · subst hbc; rw [if_pos hab]
      · rw [if_neg (lt_asymm hbc), if_pos hbc] at h2; exact absurd h2 (by simp)
    · subst hab
      rcases lt_trichotomy a c with hac | hac | hac
      · rw [if_pos hac]
      · subst hac
        rw [if_neg (lt_irrefl a), if_neg (lt_irrefl a)] at h1 h2 ⊢
        exact strLt_trans as bs cs h1 h2
      · rw [if_neg (lt_asymm hac), if_pos hac] at h2; exact absurd h2 (by simp)
    · rw [if_neg (lt_asymm hab), if_pos hab] at h1; exact absurd h1 (by simp)

/-- `strLt` is connex: two distinct names compare one way or the other. -/
theorem strLt_connex : ∀ (a b : Name), a ≠ b → strLt a b = true ∨ strLt b a = true
  | [], [] => fun h => absurd rfl h
  | [], _ :: _ => fun _ => Or.inl (by simp [strLt])
  | _ :: _, [] => fun _ => Or.inr (by simp [strLt])
  | a :: as, b :: bs => fun h => by
    rcases lt_trichotomy a b with hab | hab | hab
    · exact Or.inl (by rw [strLt, if_pos hab])
    · subst hab
      have hne : as ≠ bs := fun he => h (by rw [he])
      rcases strLt_connex as bs hne with h2 | h2
      · exact Or.inl (by rw [strLt, if_neg (lt_irrefl a), if_neg (lt_irrefl a)]; exact h2)
      · exact Or.inr (by rw [strLt, if_neg (lt_irrefl a), if_neg (lt_irrefl a)]; exact h2)
    · exact Or.inr (by rw [strLt, if_pos hab])

/-- A listed child (neither `.` nor `..`) has rank 2. -/
theorem name_rank_child (x : Name) (h1 : x ≠ ['.']) (h2 : x ≠ ['.', '.']) :
    name_rank x = 2 := by
  simp [name_rank, h1, h2]

/-- Sibling order between two listed children is the lexicographic one. -/
theorem nameLtB_children (x y : Name) (hx1 : x ≠ ['.']) (hx2 : x ≠ ['.', '.'])
    (hy1 : y ≠ ['.']) (hy2 : y ≠ ['.', '.']) (h : strLt x y = true) :
    nameLtB x y = true := by
  simp [nameLtB, name_rank_child x hx1 hx2, name_rank_child y hy1 hy2, h]

/-- The synthetic `.` precedes every listed child. -/
theorem nameLtB_dot_child (x : Name) (hx1 : x ≠ ['.']) (hx2 : x ≠ ['.', '.']) :
    nameLtB ['.'] x = true := by
  simp [nameLtB, name_rank_child x hx1 hx2, show name_rank ['.'] = 1 from rfl]

/-- The synthetic `..` precedes every listed child. -/
theorem nameLtB_dotdot_child (x : Name) (hx1 : x ≠ ['.']) (hx2 : x ≠ ['.', '.']) :
    nameLtB ['.', '.'] x = true := by
  simp [nameLtB, name_rank_child x hx1 hx2, show name_rank ['.', '.'] = 0 from rfl]

/-- The synthetic `..` precedes the synthetic `.`. -/
theorem nameLtB_dotdot_dot : nameLtB ['.', '.'] ['.'] = true := by decide

/-- `pathLtB` is stable under extending the smaller path. -/
theorem pathLtB_append_left : ∀ (x y w : Path),
    pathLtB x y = true → pathLtB (x ++ w) y = true
  | [], [], _ => by intro h; exact absurd h (by decide)
  | [], _ :: _, _ => by intro h; exact absurd h (by simp [pathLtB])
  | _ :: _, [], _ => by intro h; exact absurd h (by simp [pathLtB])
  | a :: p, b :: q, w => by
    intro h
    rw [pathLtB] at h
    rw [List.cons_append, pathLtB]
    cases hn : nameLtB a b with
    | true => simp [hn]
    | false =>
      rw [hn] at h
      simp only [Bool.false_or, Bool.and_eq_true] at h
      obtain ⟨he, hp⟩ := h
      simp [he, pathLtB_append_left p q w hp]

/-- `pathLtB` is stable under extending the larger path. -/
theorem pathLtB_append_right : ∀ (x y w : Path),
    pathLtB x y = true → pathLtB x (y ++ w) = true
  | [], [], _ => by intro h; exact absurd h (by decide)
  | [], _ :: _, _ => by intro h; exact absurd h (by simp [pathLtB])
  | _ :: _, [], _ => by intro h; exact absurd h (by simp [pathLtB])
  | a :: p, b :: q, w => by
    intro h
    rw [pathLtB] at h
    rw [List.cons_append, pathLtB]
    cases hn : nameLtB a b with
    | true => simp [hn]
    | false =>
      rw [hn] at h
      simp only [Bool.false_or, Bool.and_eq_true] at h
      obtain ⟨he, hp⟩ := h
      simp [he, pathLtB_append_right p q w hp]

/-- Siblings compare by their differing final component. -/
theorem pathLtB_sib : ∀ (p : Path) (a b : Name), nameLtB a b = true →
    pathLtB (p ++ [a]) (p ++ [b]) = true
  | [], a, b => fun h => by simp [pathLtB, h]
  | c :: p, a, b => fun h => by
    rw [List.cons_append, List.cons_append, pathLtB]
    simp [pathLtB_sib p a b h]

/-- On a well-formed filesystem, a directory listing consists of
non-special names sorted in strictly descending sibling order. -/
theorem list_dir_sorted_desc (fs : Fs) (hWF : Fs.WF fs) (path : Path)
    (entries : List Name) (h : list_dir_sorted fs path = some entries) :
    (∀ x ∈ entries, x ≠ ['.'] ∧ x ≠ ['.', '.']) ∧
    List.Pairwise (fun x y => nameLtB y x = true) entries := by
  obtain ⟨children, hc, hent⟩ : ∃ children, fs.list_children path = some children ∧
      entries = children.mergeSort fun p1 p2 => !strLt p1 p2 := by
    unfold list_dir_sorted at h
    cases hc : fs.list_children path with
    | none => rw [hc] at h; exact absurd h (by simp)
    | some children => rw [hc] at h; exact ⟨children, rfl, (Option.some.inj h).symm⟩
  obtain ⟨hnodup, hprops⟩ := hWF path children hc
  subst hent
  have hchild : ∀ x ∈ children.mergeSort fun p1 p2 => !strLt p1 p2,
      x ≠ ['.'] ∧ x ≠ ['.', '.'] := by
    intro x hx
    have hxc : x ∈ children := ((List.mergeSort_perm children _).mem_iff).1 hx
    exact ⟨(hprops x hxc).1, (hprops x hxc).2.1⟩
  refine ⟨hchild, ?_⟩
  have hsorted : List.Pairwise (fun a b => (!strLt a b) = true)
      (children.mergeSort fun p1 p2 => !strLt p1 p2) := by
    apply List.sorted_mergeSort
    · intro a b c h1 h2
      rw [Bool.not_eq_true'] at h1 h2 ⊢
      cases hac : strLt a c with
      | false => rfl
      | true =>
        rcases eq_or_ne a b with rfl | hne
        · rw [hac] at h2; cases h2
        · rcases strLt_connex a b hne with hab | hba
          · rw [hab] at h1; cases h1
          · have hbc := strLt_trans b a c hba hac
            rw [hbc] at h2; cases h2
    · intro a b
      cases hab : strLt a b with
      | false => simp
      | true => simp [strLt_asymm a b hab]
  have hnd : List.Pairwise (fun a b => a ≠ b)
      (children.mergeSort fun p1 p2 => !strLt p1 p2) :=
    (((List.mergeSort_perm children _)).pairwise_iff fun h => h.symm).2 hnodup
  refine List.Pairwise.imp_of_mem ?_ (hsorted.and hnd)
  intro a b ha hb hab
  obtain ⟨h1, h2⟩ := hab
  rw [Bool.not_eq_true'] at h1
  have hba : strLt b a = true := by
    rcases strLt_connex a b h2 with hx | hx
    · rw [hx] at h1; cases h1
    · exact hx
  exact nameLtB_children b a (hchild b hb).1 (hchild b hb).2
    (hchild a ha).1 (hchild a ha).2 hba

/-- Every entry produced by `fill_todo` is either an old entry or carries
a path that properly extends the base path. -/
theorem fill_todo_extends (fs : Fs) (patterns : List Pattern) (o : MatchOptions) :
    ∀ (k idx : Nat), patterns.length - idx ≤ k →
      ∀ (todo : List (Path × Nat)) (path : Path),
      ∀ e ∈ fill_todo fs todo patterns idx path o,
        e ∈ todo ∨ ∃ w, w ≠ [] ∧ e.1 = path ++ w := by
  intro k
  induction k with
  | zero =>
    intro idx hk todo path e he
    rw [fill_todo.eq_1, dif_neg (by omega)] at he
    exact Or.inl he
  | succ k ih =>
    intro idx hk todo path e he
    by_cases hidx : idx < patterns.length
    · rw [fill_todo.eq_1, dif_pos hidx] at he
      revert he
      cases hps : pattern_as_str (patterns.getD idx default) with
      | some s =>
        simp only []
        intro he
        split_ifs at he with h1 h2
        · rcases List.mem_append.1 he with h | h
          · exact Or.inl h
          · simp only [List.mem_singleton] at h
            subst h
            exact Or.inr ⟨[s], by simp, rfl⟩
        · rcases ih (idx + 1) (by omega) todo (path ++ [s]) e he with h | ⟨w, hw, he1⟩
          · exact Or.inl h
          · exact Or.inr ⟨[s] ++ w, by simp, by rw [he1, List.append_assoc]⟩
        · exact Or.inl he
      | none =>
        simp only []
        cases hld : list_dir_sorted fs path with
        | none => intro he; exact Or.inl he
        | some entries =>
          simp only []
          intro he
          have hbase : ∀ e2 ∈ todo ++ entries.map fun x => (path ++ [x], idx),
              e2 ∈ todo ∨ ∃ w, w ≠ [] ∧ e2.1 = path ++ w := by
            intro e2 he2
            rcases List.mem_append.1 he2 with h | h
            · exact Or.inl h
            · rcases List.mem_map.1 h with ⟨x, hx, rfl⟩
              exact Or.inr ⟨[x], by simp, rfl⟩
          by_cases hhead : (patterns.getD idx default).tokens.head? =
              some (.Char '.')
          · rw [if_pos hhead] at he
            have hmid : ∀ e2 ∈ (if (patterns.getD idx default).matches_with ['.'] o = true then
                  fun todo1 =>
                    if idx + 1 = patterns.length then todo1 ++ [(path ++ [['.']], sentinel)]
                    else fill_todo fs todo1 patterns (idx + 1) (path ++ [['.']]) o
                else id)
                (todo ++ entries.map fun x => (path ++ [x], idx)),
                e2 ∈ todo ∨ ∃ w, w ≠ [] ∧ e2.1 = path ++ w := by
              intro e2 he2
              by_cases h1 : (patterns.getD idx default).matches_with ['.'] o = true
              · rw [if_pos h1] at he2
                by_cases h2 : idx + 1 = patterns.length
                · rw [if_pos h2] at he2
                  rcases List.mem_append.1 he2 with h | h
                  · exact hbase e2 h
                  · simp only [List.mem_singleton] at h
                    subst h
                    exact Or.inr ⟨[['.']], by simp, rfl⟩
                · rw [if_neg h2] at he2
                  rcases ih (idx + 1) (by omega) _ (path ++ [['.']]) e2 he2 with h | ⟨w, hw, he1⟩
                  · exact hbase e2 h
                  · exact Or.inr ⟨[['.']] ++ w, by simp, by rw [he1, List.append_assoc]⟩
              · rw [if_neg h1] at he2
                exact hbase e2 he2
            by_cases h3 : (patterns.getD idx default).matches_with ['.', '.'] o = true
            · rw [if_pos h3] at he
              by_cases h4 : idx + 1 = patterns.length
              · rw [if_pos h4] at he
                rcases List.mem_append.1 he with h | h
                · exact hmid e h
                · simp only [List.mem_singleton] at h
                  subst h
                  exact Or.inr ⟨[['.', '.']], by simp, rfl⟩
              · rw [if_neg h4] at he
                rcases ih (idx + 1) (by omega) _ (path ++ [['.', '.']]) e he with h | ⟨w, hw, he1⟩
                · exact hmid e h
                · exact Or.inr ⟨[['.', '.']] ++ w, by simp, by rw [he1, List.append_assoc]⟩
            · rw [if_neg h3] at he
              exact hmid e he
          · rw [if_neg hhead] at he
            exact hbase e he
    · rw [fill_todo.eq_1, dif_neg hidx] at he
      exact Or.inl he

/-- `fill_todo` preserves the descending stack order: the new entries all
extend `path`, which dominates every old entry, children are pushed in
descending sibling order, and the synthetic `.`/`..` entries are pushed
after them (popped first). -/
theorem fill_todo_ord (fs : Fs) (hWF : Fs.WF fs) (patterns : List Pattern)
    (o : MatchOptions) :
    ∀ (k idx : Nat), patterns.length - idx ≤ k →
      ∀ (todo : List (Path × Nat)) (path : Path),
      List.Pairwise (fun a b => pathLtB b.1 a.1 = true) todo →
      (∀ e ∈ todo, pathLtB path e.1 = true) →
      List.Pairwise (fun a b => pathLtB b.1 a.1 = true)
        (fill_todo fs todo patterns idx path o) := by
  intro k
  induction k with
  | zero =>
    intro idx hk todo path hPair hdom
    rw [fill_todo.eq_1, dif_neg (by omega)]
    exact hPair
  | succ k ih =>
    intro idx hk todo path hPair hdom
    by_cases hidx : idx < patterns.length
    · rw [fill_todo.eq_1, dif_pos hidx]
      cases hps : pattern_as_str (patterns.getD idx default) with
      | some s =>
        simp only []
        split_ifs with h1 h2
        · rw [List.pairwise_append]
          refine ⟨hPair, List.pairwise_singleton _ _, ?_⟩
          intro a ha b hb
          simp only [List.mem_singleton] at hb
          subst hb
          exact pathLtB_append_left path a.1 [s] (hdom a ha)
        · exact ih (idx + 1) (by omega) todo (path ++ [s]) hPair
            (fun e he => pathLtB_append_left path e.1 [s] (hdom e he))
        · exact hPair
      | none =>
        simp only []
        cases hld : list_dir_sorted fs path with
        | none => exact hPair
        | some entries =>
          simp only []
          obtain ⟨hch, hdesc⟩ := list_dir_sorted_desc fs hWF path entries hld
          have hPairBase : List.Pairwise (fun a b => pathLtB b.1 a.1 = true)
              (todo ++ entries.map fun x => (path ++ [x], idx)) := by
            rw [List.pairwise_append]
            refine ⟨hPair, ?_, ?_⟩
            · rw [List.pairwise_map]
              exact hdesc.imp fun h => pathLtB_sib path _ _ h
            · intro a ha b hb
              rcases List.mem_map.1 hb with ⟨x, hx, rfl⟩
              exact pathLtB_append_left path a.1 [x] (hdom a ha)
          have hdomBase1 : ∀ e ∈ todo ++ entries.map fun x => (path ++ [x], idx),
              pathLtB (path ++ [['.']]) e.1 = true := by
            intro e he
            rcases List.mem_append.1 he with h | h
            · exact pathLtB_append_left path e.1 [['.']] (hdom e h)
            · rcases List.mem_map.1 h with ⟨x, hx, rfl⟩
              exact pathLtB_sib path _ _ (nameLtB_dot_child x (hch x hx).1 (hch x hx).2)
          have hdomBase2 : ∀ e ∈ todo ++ entries.map fun x => (path ++ [x], idx),
              pathLtB (path ++ [['.', '.']]) e.1 = true := by
            intro e he
            rcases List.mem_append.1 he with h | h
            · exact pathLtB_append_left path e.1 [['.', '.']] (hdom e h)
            · rcases List.mem_map.1 h with ⟨x, hx, rfl⟩
              exact pathLtB_sib path _ _ (nameLtB_dotdot_child x (hch x hx).1 (hch x hx).2)
          by_cases hhead : (patterns.getD idx default).tokens.head? = some (.Char '.')
          · rw [if_pos hhead]
            have hPairMid : List.Pairwise (fun a b => pathLtB b.1 a.1 = true)
                ((if (patterns.getD idx default).matches_with ['.'] o = true then
                    fun todo1 =>
                      if idx + 1 = patterns.length then
                        todo1 ++ [(path ++ [['.']], sentinel)]
                      else fill_todo fs todo1 patterns (idx + 1) (path ++ [['.']]) o
                  else id)
                  (todo ++ entries.map fun x => (path ++ [x], idx))) := by
              by_cases h1 : (patterns.getD idx default).matches_with ['.'] o = true
              · rw [if_pos h1]
                by_cases h2 : idx + 1 = patterns.length
                · rw [if_pos h2]
                  rw [List.pairwise_append]
                  refine ⟨hPairBase, List.pairwise_singleton _ _, ?_⟩
                  intro a ha b hb
                  simp only [List.mem_singleton] at hb
                  subst hb
                  exact hdomBase1 a ha
                · rw [if_neg h2]
                  exact ih (idx + 1) (by omega) _ (path ++ [['.']]) hPairBase hdomBase1
              · rw [if_neg h1]
                exact hPairBase
            have hdomMid : ∀ e ∈ (if (patterns.getD idx default).matches_with ['.'] o = true then
                    fun todo1 =>
                      if idx + 1 = patterns.length then
                        todo1 ++ [(path ++ [['.']], sentinel)]
                      else fill_todo fs todo1 patterns (idx + 1) (path ++ [['.']]) o
                  else id)
                  (todo ++ entries.map fun x => (path ++ [x], idx)),
                pathLtB (path ++ [['.', '.']]) e.1 = true := by
              intro e he
              by_cases h1 : (patterns.getD idx default).matches_with ['.'] o = true
              · rw [if_pos h1] at he
                by_cases h2 : idx + 1 = patterns.length
                · rw [if_pos h2] at he
                  rcases List.mem_append.1 he with h | h
                  · exact hdomBase2 e h
                  · simp only [List.mem_singleton] at h
                    subst h
                    exact pathLtB_sib path _ _ nameLtB_dotdot_dot
                · rw [if_neg h2] at he
                  rcases fill_todo_extends fs patterns o patterns.length (idx + 1)
                      (by omega) _ (path ++ [['.']]) e he with h | ⟨w, hw, he1⟩
                  · exact hdomBase2 e h
                  · rw [he1]
                    exact pathLtB_append_right (path ++ [['.', '.']]) (path ++ [['.']]) w
                      (pathLtB_sib path _ _ nameLtB_dotdot_dot)
              · rw [if_neg h1] at he
                exact hdomBase2 e he
            by_cases h3 : (patterns.getD idx default).matches_with ['.', '.'] o = true
            · rw [if_pos h3]
              by_cases h4 : idx + 1 = patterns.length
              · rw [if_pos h4]
                rw [List.pairwise_append]
                refine ⟨hPairMid, List.pairwise_singleton _ _, ?_⟩
                intro a ha b hb
                simp only [List.mem_singleton] at hb
                subst hb
                exact hdomMid a ha
              · rw [if_neg h4]
                exact ih (idx + 1) (by omega) _ (path ++ [['.', '.']]) hPairMid hdomMid
            · rw [if_neg h3]
              exact hPairMid
          · rw [if_neg hhead]
            exact hPairBase
    · rw [fill_todo.eq_1, dif_neg hidx]
      exact hPair

/-- One iterator step preserves the descending stack order; every new
stack entry extends an old one; and on a yield, the yielded path either
strictly precedes (in sibling order) or is an ancestor of every remaining
stack entry. -/
theorem paths_step_ord (fs : Fs) (hWF : Fs.WF fs) (st : Paths)
    (hPair : List.Pairwise (fun a b => pathLtB b.1 a.1 = true) st.todo) :
    List.Pairwise (fun a b => pathLtB b.1 a.1 = true) (paths_step fs st).2.todo
    ∧ (∀ e ∈ (paths_step fs st).2.todo, ∃ e0 ∈ st.todo, e0.1 <+: e.1)
    ∧ (∀ p, (paths_step fs st).1 = .yield p →
        ∀ e ∈ (paths_step fs st).2.todo, pathLtB p e.1 = true ∨ p <+: e.1)
    ∧ ∀ p, (paths_step fs st).1 = .yield p → ∃ i, (p, i) ∈ st.todo := by
  have hPd : List.Pairwise (fun a b => pathLtB b.1 a.1 = true) st.todo.dropLast :=
    hPair.sublist (List.dropLast_sublist _)
  rw [paths_step]
  by_cases hemp : st.dir_patterns.isEmpty = true ∨ st.todo.isEmpty = true
  · rw [if_pos hemp]
    exact ⟨hPair, ⟨fun e he => ⟨e, he, List.prefix_refl _⟩,
      ⟨fun p hp => by simp at hp, fun p hp => by simp at hp⟩⟩⟩
  · rw [if_neg hemp]
    cases hl : st.todo.getLast? with
    | none => exact ⟨hPair, ⟨fun e he => ⟨e, he, List.prefix_refl _⟩,
        ⟨fun p hp => by simp at hp, fun p hp => by simp at hp⟩⟩⟩
    | some pe =>
      obtain ⟨path, idx⟩ := pe
      simp only []
      have hmem : (path, idx) ∈ st.todo := List.mem_of_mem_getLast? hl
      have hlastdom : ∀ e ∈ st.todo.dropLast, pathLtB path e.1 = true := by
        have hne : st.todo ≠ [] := fun h => by rw [h] at hl; cases hl
        have hgl : st.todo.getLast hne = (path, idx) := by
          have h2 := List.getLast?_eq_getLast st.todo hne
          rw [hl] at h2
          exact (Option.some.inj h2).symm
        have hsplit : st.todo.dropLast ++ [(path, idx)] = st.todo := by
          rw [← hgl]
          exact List.dropLast_concat_getLast hne
        have h3 := hPair
        rw [← hsplit] at h3
        have hcross := (List.pairwise_append.1 h3).2.2
        intro e he
        exact hcross e he (path, idx) (List.mem_singleton.2 rfl)
      have htriv : ∀ e ∈ st.todo.dropLast, ∃ e0 ∈ st.todo, e0.1 <+: e.1 :=
        fun e he => ⟨e, List.dropLast_subset _ he, List.prefix_refl _⟩
      by_cases hsent : idx = sentinel
      · rw [if_pos hsent]
        by_cases hskip : st.require_dir = true ∧ ¬ fs.is_dir path = true
        · rw [if_pos hskip]
          exact ⟨hPd, ⟨htriv, ⟨fun p hp => by simp at hp, fun p hp => by simp at hp⟩⟩⟩
        · rw [if_neg hskip]
          refine ⟨hPd, ⟨htriv, ⟨?_,
                      fun p hp => by injection hp with hp0; subst hp0; exact ⟨idx, hmem⟩⟩⟩⟩
          intro p hp e he
          injection hp with hp0
          subst hp0
          exact Or.inl (hlastdom e he)
      · rw [if_neg hsent]
        have hfillpack : ∀ (j : Nat),
            List.Pairwise (fun a b => pathLtB b.1 a.1 = true)
              (fill_todo fs st.todo.dropLast st.dir_patterns j path st.options)
            ∧ (∀ e ∈ fill_todo fs st.todo.dropLast st.dir_patterns j path st.options,
                ∃ e0 ∈ st.todo, e0.1 <+: e.1)
            ∧ (∀ e ∈ fill_todo fs st.todo.dropLast st.dir_patterns j path st.options,
                pathLtB path e.1 = true ∨ path <+: e.1) := by
          intro j
          refine ⟨fill_todo_ord fs hWF st.dir_patterns st.options
            st.dir_patterns.length j (by omega) _ path hPd hlastdom, ?_, ?_⟩
          · intro e he
            rcases fill_todo_extends fs st.dir_patterns st.options
                st.dir_patterns.length j (by omega) _ path e he with h | ⟨w, hw, he1⟩
            · exact ⟨e, List.dropLast_subset _ h, List.prefix_refl _⟩
            · exact ⟨(path, idx), hmem, by rw [he1]; exact List.prefix_append _ _⟩
          · intro e he
            rcases fill_todo_extends fs st.dir_patterns st.options
                st.dir_patterns.length j (by omega) _ path e he with h | ⟨w, hw, he1⟩
            · exact Or.inl (hlastdom e h)
            · exact Or.inr (by rw [he1]; exact List.prefix_append _ _)
        by_cases hrec1 : (st.dir_patterns.getD idx default).is_recursive = true
            ∧ ¬ idx = st.dir_patterns.length - 1
        · rw [if_pos hrec1]
          by_cases hnext : next_non_recursive st.dir_patterns (idx + 1)
              = st.dir_patterns.length
          · rw [if_pos hnext]
            obtain ⟨hp1, hp2, hp3⟩ :=
              hfillpack (next_non_recursive st.dir_patterns (idx + 1) - 1)
            refine ⟨hp1, ⟨hp2, ⟨?_,
              fun p hp => by injection hp with hp0; subst hp0; exact ⟨idx, hmem⟩⟩⟩⟩
            intro p hp e he
            injection hp with hp0
            subst hp0
            exact hp3 e he
          · rw [if_neg hnext]
            cases hf : filename path with
            | none => exact ⟨hPd, ⟨htriv, ⟨fun p hp => by simp at hp, fun p hp => by simp at hp⟩⟩⟩
            | some x =>
              simp only []
              by_cases hm : (st.dir_patterns.getD
                  (next_non_recursive st.dir_patterns (idx + 1))
                    default).matches_with x st.options = true
              · rw [if_pos hm]
                by_cases hlast : next_non_recursive st.dir_patterns (idx + 1)
                    = st.dir_patterns.length - 1
                · rw [if_pos hlast]
                  by_cases hyield : ¬ st.require_dir = true ∨ fs.is_dir path = true
                  · rw [if_pos hyield]
                    refine ⟨hPd, ⟨htriv, ⟨?_,
                      fun p hp => by injection hp with hp0; subst hp0; exact ⟨idx, hmem⟩⟩⟩⟩
                    intro p hp e he
                    injection hp with hp0
                    subst hp0
                    exact Or.inl (hlastdom e he)
                  · rw [if_neg hyield]
                    exact ⟨hPd, ⟨htriv, ⟨fun p hp => by simp at hp, fun p hp => by simp at hp⟩⟩⟩
                · rw [if_neg hlast]
                  obtain ⟨hp1, hp2, _⟩ :=
                    hfillpack (next_non_recursive st.dir_patterns (idx + 1) + 1)
                  exact ⟨hp1, ⟨hp2, ⟨fun p hp => by simp at hp, fun p hp => by simp at hp⟩⟩⟩
              · rw [if_neg hm]
                by_cases hlast : next_non_recursive st.dir_patterns (idx + 1) - 1
                    = st.dir_patterns.length - 1
                · rw [if_pos hlast]
                  by_cases hyield : ¬ st.require_dir = true ∨ fs.is_dir path = true
                  · rw [if_pos hyield]
                    refine ⟨hPd, ⟨htriv, ⟨?_,
                      fun p hp => by injection hp with hp0; subst hp0; exact ⟨idx, hmem⟩⟩⟩⟩
                    intro p hp e he
                    injection hp with hp0
                    subst hp0
                    exact Or.inl (hlastdom e he)
                  · rw [if_neg hyield]
                    exact ⟨hPd, ⟨htriv, ⟨fun p hp => by simp at hp, fun p hp => by simp at hp⟩⟩⟩
                · rw [if_neg hlast]
                  obtain ⟨hp1, hp2, _⟩ :=
                    hfillpack (next_non_recursive st.dir_patterns (idx + 1) - 1)
                  exact ⟨hp1, ⟨hp2, ⟨fun p hp => by simp at hp, fun p hp => by simp at hp⟩⟩⟩
        · rw [if_neg hrec1]
          by_cases hrec2 : (st.dir_patterns.getD idx default).is_recursive = true
              ∧ idx = st.dir_patterns.length - 1
          · rw [if_pos hrec2]
            obtain ⟨hp1, hp2, hp3⟩ := hfillpack idx
            refine ⟨hp1, ⟨hp2, ⟨?_,
              fun p hp => by injection hp with hp0; subst hp0; exact ⟨idx, hmem⟩⟩⟩⟩
            intro p hp e he
            injection hp with hp0
            subst hp0
            exact hp3 e he
          · rw [if_neg hrec2]
            cases hf : filename path with
            | none => exact ⟨hPd, ⟨htriv, ⟨fun p hp => by simp at hp, fun p hp => by simp at hp⟩⟩⟩
            | some x =>
              simp only []
              by_cases hm : (st.dir_patterns.getD idx default).matches_with
                  x st.options = true
              · rw [if_pos hm]
                by_cases hlast : idx = st.dir_patterns.length - 1
                · rw [if_pos hlast]
                  by_cases hyield : ¬ st.require_dir = true ∨ fs.is_dir path = true
                  · rw [if_pos hyield]
                    refine ⟨hPd, ⟨htriv, ⟨?_,
                      fun p hp => by injection hp with hp0; subst hp0; exact ⟨idx, hmem⟩⟩⟩⟩
                    intro p hp e he
                    injection hp with hp0
                    subst hp0
                    exact Or.inl (hlastdom e he)
                  · rw [if_neg hyield]
                    exact ⟨hPd, ⟨htriv, ⟨fun p hp => by simp at hp, fun p hp => by simp at hp⟩⟩⟩
                · rw [if_neg hlast]
                  obtain ⟨hp1, hp2, _⟩ := hfillpack (idx + 1)
                  exact ⟨hp1, ⟨hp2, ⟨fun p hp => by simp at hp, fun p hp => by simp at hp⟩⟩⟩
              · rw [if_neg hm]
                exact ⟨hPd, ⟨htriv, ⟨fun p hp => by simp at hp, fun p hp => by simp at hp⟩⟩⟩

/-- Every path the iterator will ever yield extends the path of some
current stack entry. -/
theorem collect_reach (fs : Fs) (hWF : Fs.WF fs) :
    ∀ (fuel : Nat) (st : Paths),
      List.Pairwise (fun a b => pathLtB b.1 a.1 = true) st.todo →
      ∀ q ∈ collect_paths fs fuel st, ∃ e ∈ st.todo, e.1 <+: q := by
  intro fuel
  induction fuel with
  | zero => intro st hPair q hq; exact absurd hq (List.not_mem_nil q)
  | succ fuel ih =>
    intro st hPair q hq
    obtain ⟨hp1, hp2, hp3, hp4⟩ := paths_step_ord fs hWF st hPair
    rw [collect_paths] at hq
    cases hP : paths_step fs st with
    | mk r st2 =>
      cases r with
      | done =>
        rw [hP] at hq
        simp only [] at hq
        exact absurd hq (List.not_mem_nil q)
      | skip =>
        rw [hP] at hq
        simp only [] at hq
        obtain ⟨e, he, hpre⟩ := ih st2 (by rw [hP] at hp1; exact hp1) q hq
        obtain ⟨e0, he0, hpre0⟩ := hp2 e (by rw [hP]; exact he)
        exact ⟨e0, he0, hpre0.trans hpre⟩
      | yield p =>
        rw [hP] at hq
        simp only [] at hq
        rcases List.mem_cons.1 hq with rfl | hq2
        · obtain ⟨i, hi⟩ := hp4 q (by rw [hP])
          exact ⟨(q, i), hi, List.prefix_refl _⟩
        · obtain ⟨e, he, hpre⟩ := ih st2 (by rw [hP] at hp1; exact hp1) q hq2
          obtain ⟨e0, he0, hpre0⟩ := hp2 e (by rw [hP]; exact he)
          exact ⟨e0, he0, hpre0.trans hpre⟩

/-- If the stack is in descending order, the iterator's output is sorted
in the depth-first tree order `pathLeB`. -/
theorem collect_sorted (fs : Fs) (hWF : Fs.WF fs) :
    ∀ (fuel : Nat) (st : Paths),
      List.Pairwise (fun a b => pathLtB b.1 a.1 = true) st.todo →
      List.Pairwise (fun p q => pathLeB p q = true) (collect_paths fs fuel st) := by
  intro fuel
  induction fuel with
  | zero => intro st hPair; exact List.Pairwise.nil
  | succ fuel ih =>
    intro st hPair
    obtain ⟨hp1, hp2, hp3, hp4⟩ := paths_step_ord fs hWF st hPair
    rw [collect_paths]
    cases hP : paths_step fs st with
    | mk r st2 =>
      have hp1' : List.Pairwise (fun a b => pathLtB b.1 a.1 = true) st2.todo := by
        rw [hP] at hp1; exact hp1
      cases r with
      | done => exact List.Pairwise.nil
      | skip => exact ih st2 hp1'
      | yield p =>
        refine List.Pairwise.cons ?_ (ih st2 hp1')
        intro q hq
        obtain ⟨e, he, hpre⟩ := collect_reach fs hWF fuel st2 hp1' q hq
        have hdom := hp3 p (by rw [hP]) e (by rw [hP]; exact he)
        obtain ⟨w, hw⟩ := hpre
        rcases hdom with h | h
        · rw [← hw]
          have h2 := pathLtB_append_right p e.1 w h
          simp [pathLeB, h2]
        · have hpq : p <+: q := h.trans ⟨w, hw⟩
          simp [pathLeB, List.isPrefixOf_iff_prefix.2 hpq]

/-- The hidden-entries filesystem is well-formed. -/
theorem fs_dots_WF : Fs.WF fs_dots := by
  intro p ns h
  simp only [fs_dots] at h
  split_ifs at h with h1
  · injection h with h3
    subst h3
    exact ⟨by decide, by decide⟩

set_option maxRecDepth 10000 in
/-- Evaluation of `glob_with` on the pattern `.*` over `fs_dots`: the
seeded stack holds the listed children in descending order, then the
synthetic `.` and `..` entries (popped first). -/
theorem glob_dots_eval :
    glob_with fs_dots ['.', '*'] MatchOptions.new =
      .ok ⟨[⟨['.', '*'], [.Char '.', .AnySequence], false⟩], false, MatchOptions.new,
        [([['.'], ['.', 'y']], 0), ([['.'], ['.', 'x']], 0), ([['.'], ['.']], sentinel),
         ([['.'], ['.', '.']], sentinel)]⟩ := by
  have hP : Pattern.new ['.', '*'] =
      .ok ⟨['.', '*'], [.Char '.', .AnySequence], false⟩ := by
    simp +decide [Pattern.new, new_loop, star_run_end]
  have hm1 : (⟨['.', '*'], [.Char '.', .AnySequence], false⟩ : Pattern).matches_with
      ['.'] MatchOptions.new = true := by
    rw [Pattern.matches_with, matches_from.eq_10, matches_from.eq_2, matches_from.eq_1]
    decide
  have hm2 : (⟨['.', '*'], [.Char '.', .AnySequence], false⟩ : Pattern).matches_with
      ['.', '.'] MatchOptions.new = true := by
    rw [Pattern.matches_with, matches_from.eq_10, matches_from.eq_3, matches_from.eq_1,
      matches_from.eq_2, matches_from.eq_1]
    decide
  have hfill : fill_todo fs_dots [] [⟨['.', '*'], [.Char '.', .AnySequence], false⟩] 0
      [['.']] MatchOptions.new =
      [([['.'], ['.', 'y']], 0), ([['.'], ['.', 'x']], 0), ([['.'], ['.']], sentinel),
       ([['.'], ['.', '.']], sentinel)] := by
    simp +decide [fill_todo, pattern_as_str, pattern_as_str_go, list_dir_sorted, fs_dots,
      List.mergeSort, strLt, hm1, hm2]
  rw [glob_with, hP]
  simp only []
  rw [show split_terminator_sep ((['.', '*'] : List Chr).drop
      (min (if (['.', '*'] : List Chr).head? = some '/' then 1 else 0)
        (['.', '*'] : List Chr).length))
      = [['.', '*']] from by decide]
  rw [show ([['.', '*']] : List (List Chr)).mapM (fun s =>
      match Pattern.new s with | .ok p => some p | _ => none)
      = some [(⟨['.', '*'], [.Char '.', .AnySequence], false⟩ : Pattern)] from by
    simp [List.mapM, List.mapM.loop, hP]]
  simp only []
  rw [if_pos (by decide :
    ([(⟨['.', '*'], [.Char '.', .AnySequence], false⟩ : Pattern)]).length < sentinel)]
  rw [if_pos (by decide :
    ([(⟨['.', '*'], [.Char '.', .AnySequence], false⟩ : Pattern)]).length > 0)]
  rw [show (if (['.', '*'] : List Chr).head? = some '/' then ([['/']] : Path)
      else [['.']]) = [['.']] from by decide]
  rw [hfill]
  rfl

set_option maxRecDepth 10000 in
/-- C8 counterexample: on a directory holding the hidden files `.x` and
`.y`, the pattern `.*` yields, in order, `./..`, `./.`, `./.x`, `./.y` —
but `.` sorts lexicographically before `..`, so within this directory
level the output is not in ascending lexicographic order of name: the
synthetic `..` and `.` entries are yielded first, in rank order. -/
theorem dot_star_order_counterexample :
    glob_run fs_dots ['.', '*'] MatchOptions.new 9 =
      some [[['.'], ['.', '.']], [['.'], ['.']], [['.'], ['.', 'x']], [['.'], ['.', 'y']]]
    ∧ strLt ['.'] ['.', '.'] = true := by
  refine ⟨?_, by decide⟩
  have hm3 : (⟨['.', '*'], [.Char '.', .AnySequence], false⟩ : Pattern).matches_with
      ['.', 'x'] MatchOptions.new = true := by
    rw [Pattern.matches_with, matches_from.eq_10, matches_from.eq_3, matches_from.eq_1,
      matches_from.eq_2, matches_from.eq_1]
    decide
  have hm4 : (⟨['.', '*'], [.Char '.', .AnySequence], false⟩ : Pattern).matches_with
      ['.', 'y'] MatchOptions.new = true := by
    rw [Pattern.matches_with, matches_from.eq_10, matches_from.eq_3, matches_from.eq_1,
      matches_from.eq_2, matches_from.eq_1]
    decide
  have hs0 : paths_step fs_dots
      ⟨[⟨['.', '*'], [.Char '.', .AnySequence], false⟩], false, MatchOptions.new,
        [([['.'], ['.', 'y']], 0), ([['.'], ['.', 'x']], 0), ([['.'], ['.']], sentinel),
         ([['.'], ['.', '.']], sentinel)]⟩ =
      (.yield [['.'], ['.', '.']],
       ⟨[⟨['.', '*'], [.Char '.', .AnySequence], false⟩], false, MatchOptions.new,
        [([['.'], ['.', 'y']], 0), ([['.'], ['.', 'x']], 0), ([['.'], ['.']], sentinel)]⟩) := by
    simp +decide [paths_step, sentinel]
  have hs1 : paths_step fs_dots
      ⟨[⟨['.', '*'], [.Char '.', .AnySequence], false⟩], false, MatchOptions.new,
        [([['.'], ['.', 'y']], 0), ([['.'], ['.', 'x']], 0), ([['.'], ['.']], sentinel)]⟩ =
      (.yield [['.'], ['.']],
       ⟨[⟨['.', '*'], [.Char '.', .AnySequence], false⟩], false, MatchOptions.new,
        [([['.'], ['.', 'y']], 0), ([['.'], ['.', 'x']], 0)]⟩) := by
    simp +decide [paths_step, sentinel]
  have hs2 : paths_step fs_dots
      ⟨[⟨['.', '*'], [.Char '.', .AnySequence], false⟩], false, MatchOptions.new,
        [([['.'], ['.', 'y']], 0), ([['.'], ['.', 'x']], 0)]⟩ =
      (.yield [['.'], ['.', 'x']],
       ⟨[⟨['.', '*'], [.Char '.', .AnySequence], false⟩], false, MatchOptions.new,
        [([['.'], ['.', 'y']], 0)]⟩) := by
    simp +decide [paths_step, sentinel, filename, next_non_recursive, hm3]
  have hs3 : paths_step fs_dots
      ⟨[⟨['.', '*'], [.Char '.', .AnySequence], false⟩], false, MatchOptions.new,
        [([['.'], ['.', 'y']], 0)]⟩ =
      (.yield [['.'], ['.', 'y']],
       ⟨[⟨['.', '*'], [.Char '.', .AnySequence], false⟩], false, MatchOptions.new, []⟩) := by
    simp +decide [paths_step, sentinel, filename, next_non_recursive, hm4]
  have hs4 : paths_step fs_dots
      ⟨[⟨['.', '*'], [.Char '.', .AnySequence], false⟩], false, MatchOptions.new, []⟩ =
      (.done,
       ⟨[⟨['.', '*'], [.Char '.', .AnySequence], false⟩], false, MatchOptions.new, []⟩) := by
    simp [paths_step]
  rw [glob_run, glob_dots_eval]
  simp only []
  simp [collect_paths, hs0, hs1, hs2, hs3, hs4]

/-- C8 (amended): on a well-formed filesystem every traversal's output is
sorted in the depth-first tree order `pathLeB`: within one directory the
synthetic `..` entry comes first, then `.`, then the listed children in
ascending lexicographic name order (children are pushed in descending
order onto the pop-from-end stack), and a directory is yielded before its
descendants, which are exhausted before any later sibling is yielded.
The claim's per-level order is lexicographic only away from the two
synthetic entries, which lead in rank order — `..` then `.` — as
`dot_star_order_counterexample` shows. -/
theorem traversal_ordered (fs : Fs) (hWF : Fs.WF fs) (pattern : List Chr)
    (o : MatchOptions) (st : Paths) (fuel : Nat)
    (h : glob_with fs pattern o = .ok st) :
    List.Pairwise (fun p q => pathLeB p q = true) (collect_paths fs fuel st) := by
  have hPair : List.Pairwise (fun a b => pathLtB b.1 a.1 = true) st.todo := by
    rw [glob_with] at h
    split at h
    · simp at h
    · simp at h
    · split at h
      · simp at h
      · split_ifs at h
        all_goals first
          | (injection h with h2; subst h2; simp only [];
             first
               | exact fill_todo_ord fs hWF _ o _ 0 (Nat.sub_le _ _) [] _
                   List.Pairwise.nil (fun e he => absurd he (List.not_mem_nil e))
               | exact List.Pairwise.nil)
          | simp at h
  exact collect_sorted fs hWF fuel st hPair

/-- Witness for `traversal_ordered`: the `.*` traversal of `fs_dots` is
`pathLeB`-sorted. -/
theorem traversal_ordered_witness :
    Fs.WF fs_dots ∧
    List.Pairwise (fun p q => pathLeB p q = true)
      (collect_paths fs_dots 9
        ⟨[⟨['.', '*'], [.Char '.', .AnySequence], false⟩], false, MatchOptions.new,
         [([['.'], ['.', 'y']], 0), ([['.'], ['.', 'x']], 0), ([['.'], ['.']], sentinel),
          ([['.'], ['.', '.']], sentinel)]⟩) :=
  ⟨fs_dots_WF, traversal_ordered fs_dots fs_dots_WF ['.', '*'] MatchOptions.new _ 9
    glob_dots_eval⟩

end Glob
